import Mathlib

/-!
Verification development for the LLM response recovery and extraction
subsystem of the se-copilot desktop tool.  The definitions below are a
shallow embedding of the TypeScript code in
`apps/desktop/electron/services/llm.ts`: the JSON repair/extraction routine
`extractJsonFromResponse`, the inline JSON extraction pipeline of
`generateInstrumentationPlan`, and the span extractor
`extractSpansFromText` with its helpers.  Strings are modelled as lists of
characters (`String.data`); the JavaScript regular expressions are
translated into explicit scanning functions with the same backtracking
behaviour.
-/

set_option maxRecDepth 4000

/- ### Character classes and small string utilities -/

/-- The backtick character (code point 96). -/
def btick : Char := Char.ofNat 96

/-- Left curly brace (code point 123). -/
def lbrace : Char := Char.ofNat 123

/-- Right curly brace (code point 125). -/
def rbrace : Char := Char.ofNat 125

/-- JavaScript `\s` (the character class used by `String.prototype.trim` and
by `\s` in the regexes of the source): ASCII whitespace, NBSP, BOM and the
Unicode space separators. -/
def isJsWhitespace (c : Char) : Bool :=
  c = ' ' || c = '\t' || c = '\n' || c = '\r' ||
  c = Char.ofNat 0x0b || c = Char.ofNat 0x0c || c = Char.ofNat 0xa0 ||
  c = Char.ofNat 0xfeff || c = Char.ofNat 0x1680 ||
  (0x2000 ≤ c.toNat && c.toNat ≤ 0x200a) ||
  c = Char.ofNat 0x2028 || c = Char.ofNat 0x2029 || c = Char.ofNat 0x202f ||
  c = Char.ofNat 0x205f || c = Char.ofNat 0x3000

/-- `String.prototype.trim` on a character list: drop `\s` characters from
both ends. -/
def jsTrimList (l : List Char) : List Char :=
  ((l.dropWhile isJsWhitespace).reverse.dropWhile isJsWhitespace).reverse

/-- `String.prototype.trim`. -/
def jsTrimStr (s : String) : String := ⟨jsTrimList s.data⟩

/-- `p` is a prefix of `l` (Boolean). -/
def listIsPre : List Char → List Char → Bool
  | [], _ => true
  | _ :: _, [] => false
  | c :: cs, d :: ds => c = d && listIsPre cs ds

/-- `String.prototype.startsWith` on character lists. -/
def strStarts (l pre : List Char) : Bool := listIsPre pre l

/-- `String.prototype.endsWith` on character lists. -/
def strEnds (l suf : List Char) : Bool := listIsPre suf.reverse l.reverse

/-- `String.prototype.indexOf` for a single character. -/
def jsIndexOfChar : List Char → Char → Option Nat
  | [], _ => none
  | c :: r, t => if c = t then some 0 else (jsIndexOfChar r t).map (· + 1)

/-- `String.prototype.indexOf` for a substring: first index at which `sub`
is a prefix of the remainder of `l`. -/
def jsIndexOf : List Char → List Char → Option Nat
  | l, sub =>
    if listIsPre sub l then some 0
    else
      match l with
      | [] => none
      | _ :: r => (jsIndexOf r sub).map (· + 1)

/-- `String.prototype.includes`. -/
def containsSub (l sub : List Char) : Bool := (jsIndexOf l sub).isSome

/-- ASCII lower-casing of one character (`String.prototype.toLowerCase` on
the inputs that occur here). -/
def asciiLower (c : Char) : Char :=
  if 'A' ≤ c && c ≤ 'Z' then Char.ofNat (c.toNat + 32) else c

/-- ASCII lower-casing of a character list. -/
def asciiLowerList (l : List Char) : List Char := l.map asciiLower

/- ### The `extractJsonFromResponse` embedding -/

/-- Lower-case hex digit for a value below 16, as produced by
`Number.prototype.toString(16)`. -/
def hexDigit (n : Nat) : Char :=
  if n < 10 then Char.ofNat (48 + n) else Char.ofNat (87 + n)

/-- Four lower-case hex digits: `('0000' + code.toString(16)).slice(-4)` for
code points below 0x10000. -/
def hex4 (n : Nat) : List Char :=
  [hexDigit (n / 4096 % 16), hexDigit (n / 256 % 16),
   hexDigit (n / 16 % 16), hexDigit (n % 16)]

/-- The escape applied to one character of a backtick-delimited value by the
repair step: the regex `/[\u0000-\u001F\u007F-\u009F"\\]/g` with the escape
switch of the source.  Characters outside the class are unchanged. -/
def escContent (c : Char) : List Char :=
  if c.toNat ≤ 0x1f || (0x7f ≤ c.toNat && c.toNat ≤ 0x9f) || c = '"' || c = '\\' then
    if c = '"' then ['\\', '"']
    else if c = '\\' then ['\\', '\\']
    else if c = Char.ofNat 8 then ['\\', 'b']
    else if c = Char.ofNat 12 then ['\\', 'f']
    else if c = '\n' then ['\\', 'n']
    else if c = '\r' then ['\\', 'r']
    else if c = '\t' then ['\\', 't']
    else '\\' :: 'u' :: hex4 c.toNat
  else [c]

/-- `escContent` mapped over a list. -/
def escList : List Char → List Char
  | [] => []
  | c :: r => escContent c ++ escList r

/-- Scan for the closing backtick of a backtick-delimited value (the lazy
`([\s\S]*?)` of `/:\s*`…`/g`): returns the content before the first backtick
and the remainder after it. -/
def splitAtBtick : List Char → Option (List Char × List Char)
  | [] => none
  | c :: rest =>
    if c = btick then some ([], rest)
    else
      match splitAtBtick rest with
      | some (pre, post) => some (c :: pre, post)
      | none => none

/-- After a `:` the repair regex requires `\s*` then a backtick-delimited
value; returns its content and the remainder after the closing backtick. -/
def repairTryMatch (l : List Char) : Option (List Char × List Char) :=
  match l.dropWhile isJsWhitespace with
  | c :: r2 => if c = btick then splitAtBtick r2 else none
  | [] => none

/-- The backtick-to-quote repair
`cleaned.replace(/:\s*`([\s\S]*?)`/g, ': "<escaped>"')`, scanning left to
right and restarting after each replacement, with fuel bounded by the input
length. -/
def btickRepairAux : Nat → List Char → List Char
  | 0, l => l
  | _ + 1, [] => []
  | fuel + 1, c :: rest =>
    if c = ':' then
      match repairTryMatch rest with
      | some (content, post) =>
          ':' :: ' ' :: '"' :: (escList content ++ '"' :: btickRepairAux fuel post)
      | none => c :: btickRepairAux fuel rest
    else c :: btickRepairAux fuel rest

/-- The backtick-to-quote repair of `extractJsonFromResponse`. -/
def btickRepair (l : List Char) : List Char := btickRepairAux l.length l

/-- Markdown fence stripping of `extractJsonFromResponse`: trim, remove a
leading ```` ```json ```` or ```` ``` ````, remove a trailing ```` ``` ````,
trim again. -/
def stripFences (s : String) : List Char :=
  let c0 := jsTrimList s.data
  let c1 :=
    if strStarts c0 [btick, btick, btick, 'j', 's', 'o', 'n'] then c0.drop 7
    else if strStarts c0 [btick, btick, btick] then c0.drop 3
    else c0
  let c2 :=
    if strEnds c1 [btick, btick, btick] then c1.take (c1.length - 3)
    else c1
  jsTrimList c2

/-- The cleaned/repaired text of `extractJsonFromResponse`: fence stripping
followed by the backtick-to-quote repair. -/
def repairedText (s : String) : String := ⟨btickRepair (stripFences s)⟩

/-- State of the balanced scan of `extractJsonFromResponse`: the two
counters `openBraces`/`openBrackets` and the `inString`/`escapeNext`
flags. -/
structure ScanSt where
  ob : Int
  obk : Int
  inStr : Bool
  esc : Bool
deriving DecidableEq, Repr

/-- The initial scan state. -/
def initSt : ScanSt := ⟨0, 0, false, false⟩

/-- One step of the balanced scan of `extractJsonFromResponse` on one
character. -/
def stepSt (st : ScanSt) (c : Char) : ScanSt :=
  if st.esc then { st with esc := false }
  else if c = '\\' then { st with esc := true }
  else if c = '"' then { st with inStr := !st.inStr }
  else if st.inStr then st
  else
    { st with
      ob := if c = lbrace then st.ob + 1 else if c = rbrace then st.ob - 1 else st.ob,
      obk := if c = '[' then st.obk + 1 else if c = ']' then st.obk - 1 else st.obk }

/-- Whether the balanced scan of `extractJsonFromResponse` terminates at
this character: both counters are zero after the update and the character is
a closer, outside strings and escapes. -/
def stops (st : ScanSt) (c : Char) : Bool :=
  !st.esc && !(c = '\\') && !(c = '"') && !st.inStr &&
  (c = rbrace || c = ']') && (stepSt st c).ob = 0 && (stepSt st c).obk = 0

/-- The scan loop of `extractJsonFromResponse` from a given state: index of
the character at which the nesting balances, if any. -/
def findEndFrom : List Char → ScanSt → Option Nat
  | [], _ => none
  | c :: rest, st =>
    if stops st c then some 0
    else (findEndFrom rest (stepSt st c)).map (· + 1)

/-- The scan of `extractJsonFromResponse` from the JSON start index. -/
def findJsonEnd (l : List Char) : Option Nat := findEndFrom l initSt

/-- JSON start location of `extractJsonFromResponse`: the
`firstBrace`/`firstBracket` computation (earliest index of a left brace or
left bracket). -/
def findJsonStart (l : List Char) : Option Nat :=
  match jsIndexOfChar l lbrace, jsIndexOfChar l '[' with
  | some b, some k => some (min b k)
  | some b, none => some b
  | none, some k => some k
  | none, none => none

/-- The `extractJsonFromResponse` routine of the source: fence stripping,
backtick-to-quote repair, JSON start location and balanced scan; errors
mirror the two `throw new Error(...)` sites. -/
def extractJsonFromResponse (responseText : String) : Except String String :=
  let cleaned := repairedText responseText
  match findJsonStart cleaned.data with
  | none => Except.error "No JSON object or array found in LLM response."
  | some start =>
    let suffix := cleaned.data.drop start
    match findJsonEnd suffix with
    | none => Except.error "Incomplete JSON object or array in LLM response."
    | some e => Except.ok ⟨suffix.take (e + 1)⟩

/- ### The inline extraction pipeline of `generateInstrumentationPlan` -/

/-- Scan state of the inline pipeline of `generateInstrumentationPlan`: one
combined `braceCount` with the same `inString`/`escapeNext` flags. -/
structure PlanSt where
  cnt : Int
  inStr : Bool
  esc : Bool
deriving DecidableEq, Repr

/-- One step of the inline scan of `generateInstrumentationPlan`. -/
def planStep (st : PlanSt) (c : Char) : PlanSt :=
  if st.esc then { st with esc := false }
  else if c = '\\' then { st with esc := true }
  else if c = '"' then { st with inStr := !st.inStr }
  else if st.inStr then st
  else if c = lbrace || c = '[' then { st with cnt := st.cnt + 1 }
  else if c = rbrace || c = ']' then { st with cnt := st.cnt - 1 }
  else st

/-- Whether the inline scan of `generateInstrumentationPlan` records
`lastBrace` and breaks at this character: the combined counter is zero after
decrementing at a closer, outside strings and escapes. -/
def planStops (st : PlanSt) (c : Char) : Bool :=
  !st.esc && !(c = '\\') && !(c = '"') && !st.inStr &&
  (c = rbrace || c = ']') && (planStep st c).cnt = 0

/-- The inline scan loop of `generateInstrumentationPlan` (index of
`lastBrace`, if the break is reached). -/
def planFindEnd : List Char → PlanSt → Option Nat
  | [], _ => none
  | c :: rest, st =>
    if planStops st c then some 0
    else (planFindEnd rest (planStep st c)).map (· + 1)

/-- Fallback fence removal of `generateInstrumentationPlan`:
`replace(/^```(?:json)?\n?/, '').replace(/\n?```[\s\S]*$/, '')`. -/
def planFallbackStrip (l : List Char) : List Char :=
  let f0 := l.drop 3
  let f1 := if strStarts f0 ['j', 's', 'o', 'n'] then f0.drop 4 else f0
  let f2 :=
    match f1 with
    | c :: r => if c = '\n' then r else f1
    | [] => f1
  match jsIndexOf f2 [btick, btick, btick] with
  | some p =>
    if p = 0 then f2.take 0
    else if f2.getD (p - 1) ' ' = '\n' then f2.take (p - 1)
    else f2.take p
  | none => f2

/-- Fence handling of `generateInstrumentationPlan` on a text that starts
with ```` ``` ````: the regex ``/```(?:json)?\s*\n?([\s\S]*?)\n?```/``
consumes the opening fence, an optional `json` tag and all following
whitespace, and captures lazily up to the first closing fence; the captured
group is trimmed by the caller, which makes the optional newline before the
closing fence irrelevant.  If no closing fence exists the fallback
replacements apply. -/
def planFence (l : List Char) : List Char :=
  let r0 := l.drop 3
  let r1 := if strStarts r0 ['j', 's', 'o', 'n'] then r0.drop 4 else r0
  let r2 := r1.dropWhile isJsWhitespace
  match jsIndexOf r2 [btick, btick, btick] with
  | some p => jsTrimList (r2.take p)
  | none => jsTrimList (planFallbackStrip l)

/-- The inline JSON extraction pipeline of `generateInstrumentationPlan`:
its own fence handling, JSON start location (the `Math.min` over the indexes
of the two start tokens, skipped when the text already starts with one) and
single-counter balanced scan.  Returns the text handed to `JSON.parse`. -/
def planExtractJson (response : String) : String :=
  let t0 := jsTrimList response.data
  let t1 := if strStarts t0 [btick, btick, btick] then planFence t0 else t0
  let t2 :=
    if !(strStarts t1 [lbrace]) && !(strStarts t1 ['[']) then
      match findJsonStart t1 with
      | some start => t1.drop start
      | none => t1
    else t1
  let t3 :=
    match planFindEnd t2 ⟨0, false, false⟩ with
    | some lastBrace => if 0 < lastBrace then t2.take (lastBrace + 1) else t2
    | none => t2
  ⟨t3⟩

/- ### A standard JSON parser -/

/-- Modelled from the spec: the source hands the extracted substring to a
standard JSON parser (`JSON.parse`), which is not part of the repository;
this inductive is a standard JSON value (numbers kept as their source
text). -/
inductive Json where
  | null : Json
  | bool (b : Bool) : Json
  | num (s : String) : Json
  | str (s : String) : Json
  | arr (xs : List Json) : Json
  | obj (kvs : List (String × Json)) : Json

/-- Whether a JSON value is an object or an array. -/
def Json.isContainer : Json → Bool
  | .obj _ => true
  | .arr _ => true
  | _ => false

/-- JSON insignificant whitespace (RFC 8259). -/
def jsonWs (c : Char) : Bool := c = ' ' || c = '\t' || c = '\n' || c = '\r'

/-- Drop JSON whitespace. -/
def skipJsonWs (l : List Char) : List Char := l.dropWhile jsonWs

/-- Value of one hex digit, if any. -/
def hexVal (c : Char) : Option Nat :=
  if '0' ≤ c && c ≤ '9' then some (c.toNat - 48)
  else if 'a' ≤ c && c ≤ 'f' then some (c.toNat - 87)
  else if 'A' ≤ c && c ≤ 'F' then some (c.toNat - 55)
  else none

/-- Modelled from the spec: four hex digits of a `\uXXXX` escape in a
standard JSON string. -/
def parseHex4 : List Char → Option (Nat × List Char)
  | a :: b :: c :: d :: r =>
    match hexVal a, hexVal b, hexVal c, hexVal d with
    | some x, some y, some z, some w => some (((x * 16 + y) * 16 + z) * 16 + w, r)
    | _, _, _, _ => none
  | _ => none

/-- ASCII decimal digit. -/
def digitCh (c : Char) : Bool := '0' ≤ c && c ≤ '9'

/-- A nonempty run of decimal digits. -/
def parseDigitsRun (l : List Char) : Option (List Char × List Char) :=
  let d := l.takeWhile digitCh
  if d.isEmpty then none else some (d, l.drop d.length)

/-- Modelled from the spec: the integer part of a standard JSON number
(`0`, or a nonzero digit followed by digits). -/
def parseIntPart : List Char → Option (List Char × List Char)
  | c :: r =>
    if c = '0' then some (['0'], r)
    else if digitCh c then some (c :: r.takeWhile digitCh, r.dropWhile digitCh)
    else none
  | [] => none

/-- Modelled from the spec: the optional fraction part of a standard JSON
number. -/
def parseFracPart (l : List Char) : Option (List Char × List Char) :=
  match l with
  | '.' :: r =>
    match parseDigitsRun r with
    | some (d, r2) => some ('.' :: d, r2)
    | none => none
  | _ => some ([], l)

/-- Modelled from the spec: the optional exponent part of a standard JSON
number. -/
def parseExpPart (l : List Char) : Option (List Char × List Char) :=
  match l with
  | c :: r =>
    if c = 'e' || c = 'E' then
      match r with
      | s :: r2 =>
        if s = '+' || s = '-' then
          match parseDigitsRun r2 with
          | some (d, r3) => some (c :: s :: d, r3)
          | none => none
        else
          match parseDigitsRun r with
          | some (d, r3) => some (c :: d, r3)
          | none => none
      | [] => none
    else some ([], l)
  | [] => some ([], l)

/-- Modelled from the spec: the optional leading minus of a standard JSON
number. -/
def parseSign : List Char → List Char × List Char
  | '-' :: r => (['-'], r)
  | l => ([], l)

/-- Modelled from the spec: a standard JSON number
(`-?(0|[1-9][0-9]*)(\.[0-9]+)?([eE][+-]?[0-9]+)?`), returned as its source
characters. -/
def parseNumber (l : List Char) : Option (List Char × List Char) :=
  let sgn := (parseSign l).1
  let l1 := (parseSign l).2
  match parseIntPart l1 with
  | none => none
  | some (ip, l2) =>
    match parseFracPart l2 with
    | none => none
    | some (fp, l3) =>
      match parseExpPart l3 with
      | none => none
      | some (ep, l4) => some (sgn ++ ip ++ fp ++ ep, l4)

/-- Modelled from the spec: decoding of one standard JSON string escape
(the character after the backslash, with its following input). -/
def escDecode (e : Char) (rest2 : List Char) : Option (Char × List Char) :=
  if e = '"' then some ('"', rest2)
  else if e = '\\' then some ('\\', rest2)
  else if e = '/' then some ('/', rest2)
  else if e = 'b' then some (Char.ofNat 8, rest2)
  else if e = 'f' then some (Char.ofNat 12, rest2)
  else if e = 'n' then some ('\n', rest2)
  else if e = 'r' then some ('\r', rest2)
  else if e = 't' then some ('\t', rest2)
  else if e = 'u' then
    match parseHex4 rest2 with
    | some (n, rest3) => some (Char.ofNat n, rest3)
    | none => none
  else none

/-- Modelled from the spec: the body of a standard JSON string after the
opening quote; returns the decoded content and the rest after the closing
quote.  Unescaped control characters are rejected, escapes are the standard
JSON set. -/
def parseStringBody : Nat → List Char → Option (List Char × List Char)
  | 0, _ => none
  | _ + 1, [] => none
  | fuel + 1, c :: rest =>
    if c = '"' then some ([], rest)
    else if c = '\\' then
      match rest with
      | [] => none
      | e :: rest2 =>
        match escDecode e rest2 with
        | some (d, r2) =>
          match parseStringBody fuel r2 with
          | some (s, r3) => some (d :: s, r3)
          | none => none
        | none => none
    else if c.toNat < 0x20 then none
    else
      match parseStringBody fuel rest with
      | some (s, r2) => some (c :: s, r2)
      | none => none

mutual

/-- Modelled from the spec: a standard JSON value (RFC 8259), starting at a
non-whitespace character. -/
def parseValue : Nat → List Char → Option (Json × List Char)
  | 0, _ => none
  | fuel + 1, l =>
    match l with
    | c :: r =>
      if c = lbrace then
        match skipJsonWs r with
        | d :: r2 =>
          if d = rbrace then some (.obj [], r2)
          else
            match parseMembers fuel (d :: r2) with
            | some (kvs, r3) => some (.obj kvs, r3)
            | none => none
        | [] => none
      else if c = '[' then
        match skipJsonWs r with
        | d :: r2 =>
          if d = ']' then some (.arr [], r2)
          else
            match parseElements fuel (d :: r2) with
            | some (xs, r3) => some (.arr xs, r3)
            | none => none
        | [] => none
      else if c = '"' then
        match parseStringBody (fuel + 1) r with
        | some (s, r2) => some (.str ⟨s⟩, r2)
        | none => none
      else if listIsPre ['t', 'r', 'u', 'e'] l then some (.bool true, l.drop 4)
      else if listIsPre ['f', 'a', 'l', 's', 'e'] l then some (.bool false, l.drop 5)
      else if listIsPre ['n', 'u', 'l', 'l'] l then some (.null, l.drop 4)
      else
        match parseNumber l with
        | some (s, r2) => some (.num ⟨s⟩, r2)
        | none => none
    | [] => none

/-- Modelled from the spec: the nonempty member list of a standard JSON
object, consuming through the closing brace. -/
def parseMembers : Nat → List Char → Option (List (String × Json) × List Char)
  | 0, _ => none
  | fuel + 1, l =>
    match l with
    | c :: r =>
      if c = '"' then
        match parseStringBody (fuel + 1) r with
        | some (k, r2) =>
          match skipJsonWs r2 with
          | d2 :: r4 =>
            if d2 = ':' then
              match parseValue fuel (skipJsonWs r4) with
              | some (v, r6) =>
                match skipJsonWs r6 with
                | d :: r8 =>
                  if d = ',' then
                    match parseMembers fuel (skipJsonWs r8) with
                    | some (kvs, r9) => some ((⟨k⟩, v) :: kvs, r9)
                    | none => none
                  else if d = rbrace then some ([(⟨k⟩, v)], r8)
                  else none
                | [] => none
              | none => none
            else none
          | [] => none
        | none => none
      else none
    | [] => none

/-- Modelled from the spec: the nonempty element list of a standard JSON
array, consuming through the closing bracket. -/
def parseElements : Nat → List Char → Option (List Json × List Char)
  | 0, _ => none
  | fuel + 1, l =>
    match parseValue fuel l with
    | some (v, r) =>
      match skipJsonWs r with
      | d :: r2 =>
        if d = ',' then
          match parseElements fuel (skipJsonWs r2) with
          | some (xs, r3) => some (v :: xs, r3)
          | none => none
        else if d = ']' then some ([v], r2)
        else none
      | [] => none
    | none => none

end

/-- Modelled from the spec: `JSON.parse` validity and value of a full JSON
text — whitespace, one value, whitespace, end of input. -/
def parseJsonText (s : String) : Option Json :=
  let l := skipJsonWs s.data
  match parseValue (l.length + 1) l with
  | some (v, r) => if skipJsonWs r = [] then some v else none
  | none => none

/- ### The span extractor `extractSpansFromText` -/

/-- Lower-case ASCII letter. -/
def lcLetter (c : Char) : Bool := 'a' ≤ c && c ≤ 'z'

/-- ASCII letter of either case. -/
def anyLetter (c : Char) : Bool := lcLetter c || ('A' ≤ c && c ≤ 'Z')

/-- Lower-case ASCII letter or underscore (the `[a-z_]` class of the
attribute regexes). -/
def lcUnder (c : Char) : Bool := lcLetter c || c = '_'

/-- The characters JavaScript `.` does not match (no `s` flag). -/
def isJsNewline (c : Char) : Bool :=
  c = '\n' || c = '\r' || c = Char.ofNat 0x2028 || c = Char.ofNat 0x2029

/-- Generic leftmost-match search: try the matcher at every start position,
as a JavaScript regex engine does. -/
def scanFirst {α : Type} (f : List Char → Option α) : List Char → Option α
  | [] => f []
  | c :: r =>
    match f (c :: r) with
    | some x => some x
    | none => scanFirst f r

/-- Generic `matchAll`: find non-overlapping matches left to right,
restarting after the end of each match (fuel bounded by the input length;
every matcher here consumes at least one character). -/
def scanAll {α : Type} (f : List Char → Option (α × List Char)) :
    Nat → List Char → List α
  | 0, _ => []
  | _ + 1, [] => []
  | fuel + 1, c :: r =>
    match f (c :: r) with
    | some (x, rest) => x :: scanAll f fuel rest
    | none => scanAll f fuel r

/-- Greedy-`\s*` backtracking before a capture: try the attempt after `k`
whitespace characters for `k` from the run length down to zero, as the regex
engine does when the capture cannot start after the maximal run. -/
def tryBack {α : Type} (att : List Char → Option α) : Nat → List Char → Option α
  | 0, l => att l
  | k + 1, l =>
    match att (l.drop (k + 1)) with
    | some x => some x
    | none => tryBack att k l

/-- The `(?:\.[a-zA-Z]+)+` tail of the span-name patterns: one or more
groups of a dot followed by letters, matched greedily (no backtracking can
help, since a shorter match always leaves a letter or dot where a backtick
or nothing is required). -/
def dotGroupsAux : Nat → List Char → Option (List Char × List Char)
  | 0, _ => none
  | fuel + 1, l =>
    match l with
    | '.' :: r =>
      let seg := r.takeWhile anyLetter
      if seg.isEmpty then none
      else
        let r1 := r.drop seg.length
        match dotGroupsAux fuel r1 with
        | some (gs, r2) => some ('.' :: (seg ++ gs), r2)
        | none => some ('.' :: seg, r1)
    | _ => none

/-- See `dotGroupsAux`. -/
def dotGroups (l : List Char) : Option (List Char × List Char) :=
  dotGroupsAux (l.length + 1) l

/-- One attempt of pattern 1 of `extractSpansFromText`,
``/`([a-z]+(?:\.[a-zA-Z]+)+)`/g``, at the head of the input: a backtick, a
lower-case run, dotted groups, and a closing backtick. -/
def p1TryAt (l : List Char) : Option (List Char × List Char) :=
  match l with
  | c :: r =>
    if c = btick then
      let seg1 := r.takeWhile lcLetter
      if seg1.isEmpty then none
      else
        match dotGroups (r.drop seg1.length) with
        | some (gs, r2) =>
          match r2 with
          | d :: r3 => if d = btick then some (seg1 ++ gs, r3) else none
          | [] => none
        | none => none
    else none
  | [] => none

/-- The captured names of pattern 1 of `extractSpansFromText`, in match
order. -/
def pass1Names (text : String) : List String :=
  (scanAll p1TryAt (text.data.length + 1) text.data).map (fun nm => (⟨nm⟩ : String))

/-- The `\s*([a-z]+(?:\.[a-zA-Z]+)+)` tail of pattern 2 (under the `i` flag
the letter class is case-insensitive); no closing delimiter is required. -/
def p2Tail (l : List Char) : Option (List Char × List Char) :=
  let r := l.dropWhile isJsWhitespace
  let seg1 := r.takeWhile anyLetter
  if seg1.isEmpty then none
  else
    match dotGroups (r.drop seg1.length) with
    | some (gs, r2) => some (seg1 ++ gs, r2)
    | none => none

/-- The lazy `.*?[:`]` of pattern 2: extend over non-newline characters; at
each colon or backtick try the tail, and on failure keep extending. -/
def p2Ext : Nat → List Char → Option (List Char × List Char)
  | 0, _ => none
  | _ + 1, [] => none
  | fuel + 1, c :: rest =>
    if c = ':' || c = btick then
      match p2Tail rest with
      | some res => some res
      | none => p2Ext fuel rest
    else if isJsNewline c then none
    else p2Ext fuel rest

/-- One attempt of pattern 2 of `extractSpansFromText`,
``/span.*?[:`]\s*([a-z]+(?:\.[a-zA-Z]+)+)/gi``, at the head of the input. -/
def p2TryAt (l : List Char) : Option (List Char × List Char) :=
  match l with
  | s :: p :: a :: n :: rest =>
    if asciiLower s = 's' && asciiLower p = 'p' && asciiLower a = 'a' &&
       asciiLower n = 'n' then
      p2Ext (rest.length + 1) rest
    else none
  | _ => none

/-- The captured names of pattern 2 of `extractSpansFromText`, lower-cased
as in the loop body, in match order. -/
def pass2Names (text : String) : List String :=
  (scanAll p2TryAt (text.data.length + 1) text.data).map
    (fun nm => (⟨asciiLowerList nm⟩ : String))

/-- `String.prototype.includes` with a `String` needle. -/
def strContains (l : List Char) (s : String) : Bool := containsSub l s.data

/-- The `guessLayer` helper: keyword search in a ±100-character window of
the lower-cased text around the span name (the `Math.min`/`Math.max` window
arithmetic of the source, with `indexOf` returning -1 when absent). -/
def guessLayer (spanName text : String) : String :=
  let lowerContext := asciiLowerList text.data
  let lowerSpanName := asciiLowerList spanName.data
  let spanIndex : Int :=
    match jsIndexOf lowerContext lowerSpanName with
    | some i => (i : Int)
    | none => -1
  let lo := max 0 (spanIndex - 100)
  let hi := min (lowerContext.length : Int) (spanIndex + 100)
  let contextWindow := (lowerContext.take hi.toNat).drop lo.toNat
  if strContains contextWindow "frontend" || strContains contextWindow "client" ||
     strContains contextWindow "browser" || strContains contextWindow "user action" ||
     strContains contextWindow "click" || strContains contextWindow "submit" then
    "frontend"
  else if strContains contextWindow "backend" || strContains contextWindow "server" ||
     strContains contextWindow "api" || strContains contextWindow "database" ||
     strContains contextWindow "payment" || strContains contextWindow "process" ||
     strContains spanName.data "validate" || strContains spanName.data "process" ||
     strContains spanName.data "fetch" then
    "backend"
  else
    let op := spanName.data.takeWhile (fun c => !(c = '.'))
    if ["db", "http", "payment", "auth", "email"].any (fun s => s.data = op) then "backend"
    else "backend"

/-- The `([^.\n*]+)` capture with the `(?:\.|$|\n)` follower of description
pattern 1. -/
def descCap1 (l : List Char) : Option (List Char) :=
  let cap := l.takeWhile (fun c => !(c = '.' || c = '\n' || c = '*'))
  if cap.isEmpty then none
  else
    match l.drop cap.length with
    | [] => some cap
    | c :: _ => if c = '.' || c = '\n' then some cap else none

/-- The `([^.\n*]+)` capture of description pattern 3 (no follower). -/
def descCap3 (l : List Char) : Option (List Char) :=
  let cap := l.takeWhile (fun c => !(c = '.' || c = '\n' || c = '*'))
  if cap.isEmpty then none else some cap

/-- One attempt of description pattern 1,
``/`[^`]+`\s*:\s*([^.\n*]+)(?:\.|$|\n)/``, at the head of the input. -/
def descPat1Try (l : List Char) : Option (List Char) :=
  match l with
  | c :: r =>
    if c = btick then
      let content := r.takeWhile (fun d => !(d = btick))
      if content.isEmpty then none
      else
        match r.drop content.length with
        | d :: r2 =>
          if d = btick then
            match r2.dropWhile isJsWhitespace with
            | ':' :: r4 =>
              let ws2 := r4.takeWhile isJsWhitespace
              tryBack descCap1 ws2.length r4
            | _ => none
          else none
        | [] => none
    else none
  | [] => none

/-- One attempt of description pattern 2, `/\(([^)]+)\)/`, at the head of
the input. -/
def descPat2Try (l : List Char) : Option (List Char) :=
  match l with
  | '(' :: r =>
    let content := r.takeWhile (fun d => !(d = ')'))
    if content.isEmpty then none
    else
      match r.drop content.length with
      | ')' :: _ => some content
      | _ => none
  | _ => none

/-- One attempt of description pattern 3, `/[:–-]\s*([^.\n*]+)/` (colon,
en dash or hyphen), at the head of the input. -/
def descPat3Try (l : List Char) : Option (List Char) :=
  match l with
  | c :: r =>
    if c = ':' || c = Char.ofNat 0x2013 || c = '-' then
      let ws := r.takeWhile isJsWhitespace
      tryBack descCap3 ws.length r
    else none
  | [] => none

/-- The `extractDescription` helper: the three description patterns tried in
order over the 300 characters after the span name's first occurrence. -/
def extractDescription (spanName text : String) : String :=
  match jsIndexOf text.data spanName.data with
  | none => ""
  | some spanIndex =>
    let afterSpan := (text.data.drop spanIndex).take 300
    match scanFirst descPat1Try afterSpan with
    | some d => jsTrimStr ⟨d⟩
    | none =>
      match scanFirst descPat2Try afterSpan with
      | some d => (⟨d⟩ : String)
      | none =>
        match scanFirst descPat3Try afterSpan with
        | some d => jsTrimStr ⟨d⟩
        | none => ""

/-- JavaScript-object style insert/overwrite on an insertion-ordered
association list (`attributes[key] = value`). -/
def setKey : List (String × String) → String → String → List (String × String)
  | [], k, v => [(k, v)]
  | (k0, v0) :: rest, k, v =>
    if k0 = k then (k, v) :: rest else (k0, v0) :: setKey rest k v

/-- Key lookup on the association list.  The stored descriptions are always
nonempty, so the source's truthiness test `attributes[attrName]` is key
membership. -/
def getKey : List (String × String) → String → Option String
  | [], _ => none
  | (k0, v0) :: rest, k => if k0 = k then some v0 else getKey rest k

/-- The attribute description ``Tracks `${attrName.replace(/_/g, ' ')}` ``. -/
def trackDesc (nm : List Char) : String :=
  "Tracks " ++ (⟨nm.map (fun c => if c = '_' then ' ' else c)⟩ : String)

/-- Case-insensitive prefix test against a lower-case pattern. -/
def ciIsPre : List Char → List Char → Bool
  | [], _ => true
  | _ :: _, [] => false
  | p :: ps, c :: cs => asciiLower c = p && ciIsPre ps cs

/-- The case-insensitive `Attributes?:` literal: returns the remainder after
the colon when it matches at the head of the input (the optional `s` is
greedy; if taking it does not reach a colon, dropping it cannot either). -/
def attrLabelTry (l : List Char) : Option (List Char) :=
  if ciIsPre ['a', 't', 't', 'r', 'i', 'b', 'u', 't', 'e'] l then
    match l.drop 9 with
    | c :: r2 =>
      if asciiLower c = 's' then
        match r2 with
        | d :: r3 => if d = ':' then some r3 else none
        | [] => none
      else if c = ':' then some r2
      else none
    | [] => none
  else none

/-- The `([^\n]+)` capture of the attributes-label pattern. -/
def attrCapA (l : List Char) : Option (List Char) :=
  let cap := l.takeWhile (fun c => !(c = '\n'))
  if cap.isEmpty then none else some cap

/-- One attempt of attribute pattern 1, `/Attributes?:\s*([^\n]+)/i`, at the
head of the input. -/
def attrPat1Try (l : List Char) : Option (List Char) :=
  match attrLabelTry l with
  | some r =>
    let ws := r.takeWhile isJsWhitespace
    tryBack attrCapA ws.length r
  | none => none

/-- One attempt of the backtick attribute pattern ``/`([a-z_]+)`/g`` at the
head of the input. -/
def btAttrTry (l : List Char) : Option (List Char × List Char) :=
  match l with
  | c :: r =>
    if c = btick then
      let nm := r.takeWhile lcUnder
      if nm.isEmpty then none
      else
        match r.drop nm.length with
        | d :: r2 => if d = btick then some (nm, r2) else none
        | [] => none
    else none
  | [] => none

/-- One attempt of the bold attribute pattern `/\*\*([a-z_]+)\*\*/g` at the
head of the input. -/
def boldAttrTry (l : List Char) : Option (List Char × List Char) :=
  match l with
  | a :: b :: r =>
    if a = '*' && b = '*' then
      let nm := r.takeWhile lcUnder
      if nm.isEmpty then none
      else
        match r.drop nm.length with
        | c :: d :: r2 => if c = '*' && d = '*' then some (nm, r2) else none
        | _ => none
    else none
  | _ => none

/-- One attempt of attribute pattern 2 (bullet lines),
``/[*•-]\s*Attributes?:\s*`([^`]+)`/gi``, at the head of the input. -/
def bulletAttrTry (l : List Char) : Option (List Char × List Char) :=
  match l with
  | c :: r =>
    if c = '*' || c = Char.ofNat 0x2022 || c = '-' then
      match attrLabelTry (r.dropWhile isJsWhitespace) with
      | some r2 =>
        match r2.dropWhile isJsWhitespace with
        | d :: r4 =>
          if d = btick then
            let content := r4.takeWhile (fun x => !(x = btick))
            if content.isEmpty then none
            else
              match r4.drop content.length with
              | e :: r5 => if e = btick then some (content, r5) else none
              | [] => none
          else none
        | [] => none
      | none => none
    else none
  | [] => none

/-- `String.prototype.split(/[,\s]+/)` on the bullet attribute list. -/
def splitCommaWsAux : Nat → List Char → List Char → List (List Char)
  | 0, _, cur => [cur.reverse]
  | _ + 1, [], cur => [cur.reverse]
  | fuel + 1, c :: r, cur =>
    if c = ',' || isJsWhitespace c then
      cur.reverse ::
        splitCommaWsAux fuel
          ((c :: r).dropWhile (fun x => x = ',' || isJsWhitespace x)) []
    else splitCommaWsAux fuel r (c :: cur)

/-- See `splitCommaWsAux`. -/
def splitCommaWs (l : List Char) : List (List Char) :=
  splitCommaWsAux (l.length + 1) l []

/-- The allowlist of common attribute-ish substrings of attribute
pattern 3. -/
def attrAllowlist : List String :=
  ["id", "name", "price", "quantity", "value", "amount", "count", "method",
   "status", "type", "user", "error", "address", "street", "city", "state",
   "zip", "rate", "shipping", "order", "cart", "product"]

/-- Whether an attribute name contains one of the allowlisted substrings. -/
def isCommonAttr (nm : List Char) : Bool :=
  attrAllowlist.any (fun kw => containsSub nm kw.data)

/-- The `extractAttributes` helper: the three additive attribute patterns
over the 400 characters after the span name's first occurrence. -/
def extractAttributes (spanName text : String) : List (String × String) :=
  match jsIndexOf text.data spanName.data with
  | none => []
  | some spanIndex =>
    let context := (text.data.drop spanIndex).take 400
    let attrs1 : List (String × String) :=
      match scanFirst attrPat1Try context with
      | some attributesText =>
        (scanAll btAttrTry (attributesText.length + 1) attributesText).foldl
          (fun m nm =>
            if containsSub nm ['.'] then m
            else setKey m ⟨nm⟩ (trackDesc nm)) []
      | none => []
    let attrs2 :=
      (scanAll bulletAttrTry (context.length + 1) context).foldl
        (fun m attrList =>
          (splitCommaWs attrList).foldl
            (fun m2 piece =>
              let cleaned := jsTrimList piece
              if !cleaned.isEmpty && !containsSub cleaned ['.'] then
                setKey m2 ⟨cleaned⟩ (trackDesc cleaned)
              else m2) m) attrs1
    let attrs3 :=
      (scanAll btAttrTry (context.length + 1) context).foldl
        (fun m nm =>
          if containsSub nm ['.'] || (⟨nm⟩ : String) = spanName ||
             (getKey m ⟨nm⟩).isSome then m
          else if isCommonAttr nm then setKey m ⟨nm⟩ (trackDesc nm)
          else m) attrs2
    (scanAll boldAttrTry (context.length + 1) context).foldl
      (fun m nm =>
        if containsSub nm ['.'] || (⟨nm⟩ : String) = spanName ||
           (getKey m ⟨nm⟩).isSome then m
        else if isCommonAttr nm then setKey m ⟨nm⟩ (trackDesc nm)
        else m) attrs3

/-- The PII keyword list of `detectPIIKeys`. -/
def piiKeywords : List String :=
  ["email", "phone", "address", "ssn", "card", "password", "token", "ip",
   "street", "city", "zip", "postal", "credit", "cvv", "billing",
   "shipping_address", "billing_address", "name", "firstname", "lastname"]

/-- The `detectPIIKeys` helper: collect the attribute keys whose lower-cased
form contains a PII keyword, in key order. -/
def detectPIIKeys (attributes : List (String × String)) : List String :=
  attributes.foldl
    (fun acc kv =>
      let lowerKey := asciiLowerList kv.1.data
      if piiKeywords.any (fun kw => containsSub lowerKey kw.data) then
        acc ++ [kv.1]
      else acc)
    []

/-- The record pushed by `extractSpansFromText` (the source's
`SpanDefinition` with `pii: { keys }` flattened to `piiKeys`). -/
structure SpanDefinition where
  name : String
  op : String
  layer : String
  description : String
  attributes : List (String × String)
  piiKeys : List String
deriving DecidableEq, Repr

/-- The operation: the part of the span name before the first dot
(`spanName.split('.')[0]`). -/
def spanOp (nm : String) : String := ⟨nm.data.takeWhile (fun c => !(c = '.'))⟩

/-- `extractDescription` with the templated fallback
(`description || 'Tracks <name> operation'`). -/
def spanDescription (spanName text : String) : String :=
  let d := extractDescription spanName text
  if d = "" then "Tracks " ++ spanName ++ " operation" else d

/-- The candidate pushed by pass 1 of `extractSpansFromText` for one
captured name. -/
def mkPass1Span (text : String) (nm : String) : SpanDefinition :=
  let attributes := extractAttributes nm text
  { name := nm, op := spanOp nm, layer := guessLayer nm text,
    description := spanDescription nm text,
    attributes := attributes,
    piiKeys := detectPIIKeys attributes }

/-- The candidate pushed by pass 2 of `extractSpansFromText` for one
captured name (PII keys are always empty in this pass). -/
def mkPass2Span (text : String) (nm : String) : SpanDefinition :=
  { name := nm, op := spanOp nm, layer := guessLayer nm text,
    description := spanDescription nm text,
    attributes := extractAttributes nm text,
    piiKeys := [] }

/-- `spanName.includes('.')`. -/
def hasDotStr (nm : String) : Bool := containsSub nm.data ['.']

/-- The `extractSpansFromText` routine: pass 1 pushes a candidate for every
backtick-pattern match with a dot; pass 2 pushes a candidate for every
explicit-pattern match with a dot whose name is not already present in the
accumulated list. -/
def extractSpansFromText (text : String) : List SpanDefinition :=
  let spans1 := ((pass1Names text).filter hasDotStr).map (mkPass1Span text)
  (pass2Names text).foldl
    (fun spans nm =>
      if !hasDotStr nm then spans
      else if (spans.find? (fun s => s.name = nm)).isSome then spans
      else spans ++ [mkPass2Span text nm])
    spans1

/-- A character that is none of the six structural characters of the scan. -/
def plainChar (c : Char) : Bool :=
  !(c = lbrace || c = rbrace || c = '[' || c = ']' || c = '"' || c = '\\')

/-- A segment is neutral for the scan at a state: the scan does not stop in
it and the state is restored after it. -/
def neutralAt (st : ScanSt) (seg : List Char) : Prop :=
  findEndFrom seg st = none ∧ seg.foldl stepSt st = st

/-- Whether both counters of the shared scan stay nonnegative after every
step along the text. -/
def scanNonneg : List Char → ScanSt → Bool
  | [], _ => true
  | c :: rest, st =>
    (0 ≤ (stepSt st c).ob && 0 ≤ (stepSt st c).obk) && scanNonneg rest (stepSt st c)

/-- One step of the pass-2 loop of `extractSpansFromText`: skip names
without a dot, skip names already present, append otherwise. -/
def pass2Step (text : String) (spans : List SpanDefinition) (nm : String) :
    List SpanDefinition :=
  if !hasDotStr nm then spans
  else if (spans.find? (fun s => s.name = nm)).isSome then spans
  else spans ++ [mkPass2Span text nm]

/- ### Lemmas about the balanced scan -/

/-- A character index search fails exactly when the character is absent. -/
theorem jsIndexOfChar_eq_none {l : List Char} {c : Char} :
    jsIndexOfChar l c = none ↔ c ∉ l := by
  induction l with
  | nil => simp [jsIndexOfChar]
  | cons d r ih =>
    by_cases hdc : d = c
    · subst hdc
      simp [jsIndexOfChar]
    · simp [jsIndexOfChar, hdc, Option.map_eq_none', ih, Ne.symm hdc]

/-- The JSON start search fails exactly when neither start token occurs. -/
theorem findJsonStart_eq_none {l : List Char} :
    findJsonStart l = none ↔ lbrace ∉ l ∧ '[' ∉ l := by
  unfold findJsonStart
  rcases hb : jsIndexOfChar l lbrace with _ | b <;>
    rcases hk : jsIndexOfChar l '[' with _ | k <;>
      simp_all [← jsIndexOfChar_eq_none]

/-- If the scan stops at a character, that character is a closer. -/
theorem stops_closer {st : ScanSt} {c : Char} (h : stops st c = true) :
    c = rbrace ∨ c = ']' := by
  simp only [stops, Bool.and_eq_true, Bool.or_eq_true, decide_eq_true_eq] at h
  exact h.1.1.2

/-- Truncating the input right after the index found by the scan does not
change the scan's result. -/
theorem findEndFrom_take :
    ∀ (l : List Char) (st : ScanSt) (e : Nat), findEndFrom l st = some e →
      e < l.length ∧ findEndFrom (l.take (e + 1)) st = some e := by
  intro l
  induction l with
  | nil => intro st e h; simp [findEndFrom] at h
  | cons c rest ih =>
    intro st e h
    rw [findEndFrom] at h
    by_cases hs : stops st c = true
    · rw [if_pos hs] at h
      obtain rfl : e = 0 := by simpa using h.symm
      constructor
      · simp
      · simp [findEndFrom, hs]
    · rw [if_neg hs, Option.map_eq_some'] at h
      obtain ⟨e', he', rfl⟩ := h
      obtain ⟨hlt, htake⟩ := ih (stepSt st c) e' he'
      constructor
      · simpa using Nat.succ_lt_succ hlt
      · simp only [List.take_succ_cons, findEndFrom, if_neg hs, htake, Option.map_some']

/-- The character at the index found by the scan is a closer. -/
theorem findEndFrom_getD_closer :
    ∀ (l : List Char) (st : ScanSt) (e : Nat), findEndFrom l st = some e →
      l.getD e ' ' = rbrace ∨ l.getD e ' ' = ']' := by
  intro l
  induction l with
  | nil => intro st e h; simp [findEndFrom] at h
  | cons c rest ih =>
    intro st e h
    rw [findEndFrom] at h
    by_cases hs : stops st c = true
    · rw [if_pos hs] at h
      obtain rfl : e = 0 := by simpa using h.symm
      simpa using stops_closer hs
    · rw [if_neg hs, Option.map_eq_some'] at h
      obtain ⟨e', he', rfl⟩ := h
      simpa using ih (stepSt st c) e' he'

/- ### Scan composition lemmas -/

/-- The scan over a concatenation: a result in the first part wins,
otherwise the scan continues in the second part from the folded state. -/
theorem findEndFrom_append :
    ∀ (a b : List Char) (st : ScanSt),
      findEndFrom (a ++ b) st =
        match findEndFrom a st with
        | some j => some j
        | none => (findEndFrom b (a.foldl stepSt st)).map (· + a.length) := by
  intro a
  induction a with
  | nil =>
    intro b st
    simp [findEndFrom]
  | cons c a' ih =>
    intro b st
    by_cases hs : stops st c = true
    · simp [findEndFrom, hs]
    · have hl : findEndFrom ((c :: a') ++ b) st =
          (findEndFrom (a' ++ b) (stepSt st c)).map (· + 1) := by
        rw [List.cons_append, findEndFrom, if_neg hs]
      have hr : findEndFrom (c :: a') st =
          (findEndFrom a' (stepSt st c)).map (· + 1) := by
        rw [findEndFrom, if_neg hs]
      rw [hl, hr, ih]
      rcases findEndFrom a' (stepSt st c) with _ | j
      · rw [List.foldl_cons]
        rcases findEndFrom b (a'.foldl stepSt (stepSt st c)) with _ | k
        · rfl
        · simp only [Option.map_none', Option.map_some', Option.some.injEq,
            List.length_cons]
          omega
      · rfl

/-- Scanning past a neutral segment: the appended scan is the continuation
scan shifted by the segment length, and the fold continues from the carried
state. -/
theorem neutral_extend {a : List Char} {st st' : ScanSt}
    (h1 : findEndFrom a st = none) (h2 : a.foldl stepSt st = st') (b : List Char) :
    findEndFrom (a ++ b) st = (findEndFrom b st').map (· + a.length) ∧
    (a ++ b).foldl stepSt st = b.foldl stepSt st' := by
  constructor
  · rw [findEndFrom_append, h1, h2]
  · rw [List.foldl_append, h2]

/-- A plain character leaves a good (outside-string, no-escape) state
unchanged. -/
theorem stepSt_plain {st : ScanSt} {c : Char} (hin : st.inStr = false)
    (hesc : st.esc = false) (hc : plainChar c = true) : stepSt st c = st := by
  simp only [plainChar, Bool.not_eq_true', Bool.or_eq_false_iff,
    decide_eq_false_iff_not] at hc
  obtain ⟨⟨⟨⟨⟨h1, h2⟩, h3⟩, h4⟩, h5⟩, h6⟩ := hc
  simp [stepSt, hesc, hin, h1, h2, h3, h4, h5, h6]
  cases st
  simp_all

/-- The scan never stops at a non-closer. -/
theorem stops_plain {st : ScanSt} {c : Char} (hc : plainChar c = true) :
    stops st c = false := by
  simp only [plainChar, Bool.not_eq_true', Bool.or_eq_false_iff,
    decide_eq_false_iff_not] at hc
  obtain ⟨⟨⟨⟨⟨h1, h2⟩, h3⟩, h4⟩, h5⟩, h6⟩ := hc
  simp [stops, h2, h4]

/-- A character inside a string that is not a quote or backslash leaves the
state unchanged. -/
theorem stepSt_inStr {st : ScanSt} {c : Char} (hin : st.inStr = true)
    (hesc : st.esc = false) (hq : c ≠ '"') (hb : c ≠ '\\') : stepSt st c = st := by
  simp [stepSt, hesc, hq, hb, hin]

/-- The scan never stops inside a string. -/
theorem stops_inStr {st : ScanSt} {c : Char} (hin : st.inStr = true) :
    stops st c = false := by
  simp [stops, hin]

/-- A segment of plain characters is neutral for the scan from any good
state. -/
theorem scan_plain_seg :
    ∀ (seg : List Char) (ob obk : Int), (∀ c ∈ seg, plainChar c = true) →
      findEndFrom seg ⟨ob, obk, false, false⟩ = none ∧
      seg.foldl stepSt ⟨ob, obk, false, false⟩ = ⟨ob, obk, false, false⟩ := by
  intro seg
  induction seg with
  | nil => intro ob obk _; exact ⟨rfl, rfl⟩
  | cons c rest ih =>
    intro ob obk h
    have hc := h c (List.mem_cons_self c rest)
    have hrest := fun d hd => h d (List.mem_cons_of_mem c hd)
    have hstep : stepSt ⟨ob, obk, false, false⟩ c = ⟨ob, obk, false, false⟩ :=
      stepSt_plain rfl rfl hc
    obtain ⟨ih1, ih2⟩ := ih ob obk hrest
    constructor
    · rw [findEndFrom, if_neg (by simp [stops_plain hc]), hstep, ih1]
      rfl
    · rw [List.foldl_cons, hstep, ih2]

/- ### From the JSON grammar to the scan -/

/-- JSON whitespace is not structural for the scan. -/
theorem plain_of_jsonWs {c : Char} (h : jsonWs c = true) : plainChar c = true := by
  have hc : c = ' ' ∨ c = '\t' ∨ c = '\n' ∨ c = '\r' := by
    simpa [jsonWs, or_assoc] using h
  rcases hc with rfl | rfl | rfl | rfl <;> decide

/-- A Boolean prefix yields a list decomposition. -/
theorem listIsPre_decomp :
    ∀ (p l : List Char), listIsPre p l = true → l = p ++ l.drop p.length := by
  intro p
  induction p with
  | nil => intro l _; simp
  | cons c ps ih =>
    intro l h
    cases l with
    | nil => simp [listIsPre] at h
    | cons d ds =>
      simp only [listIsPre, Bool.and_eq_true, decide_eq_true_eq] at h
      obtain ⟨rfl, h2⟩ := h
      simpa using ih ds h2

/-- A hex digit is not a quote or backslash. -/
theorem hexVal_not_structural {c : Char} (h : (hexVal c).isSome = true) :
    c ≠ '"' ∧ c ≠ '\\' := by
  constructor <;> rintro rfl <;> simp [hexVal] at h

/-- `parseHex4` consumes exactly four hex digits. -/
theorem parseHex4_consumes {l : List Char} {n : Nat} {r : List Char}
    (h : parseHex4 l = some (n, r)) :
    ∃ a b c d, l = a :: b :: c :: d :: r ∧ (hexVal a).isSome = true ∧
      (hexVal b).isSome = true ∧ (hexVal c).isSome = true ∧
      (hexVal d).isSome = true := by
  match l with
  | [] => simp [parseHex4] at h
  | [a] => simp [parseHex4] at h
  | [a, b] => simp [parseHex4] at h
  | [a, b, c] => simp [parseHex4] at h
  | a :: b :: c :: d :: rest =>
    rw [parseHex4] at h
    rcases ha : hexVal a with _ | x
    · rw [ha] at h; exact Option.noConfusion h
    rw [ha] at h
    rcases hb : hexVal b with _ | y
    · rw [hb] at h; exact Option.noConfusion h
    rw [hb] at h
    rcases hc : hexVal c with _ | z
    · rw [hc] at h; exact Option.noConfusion h
    rw [hc] at h
    rcases hd : hexVal d with _ | w
    · rw [hd] at h; exact Option.noConfusion h
    rw [hd] at h
    have h' : ((((x * 16 + y) * 16 + z) * 16 + w : Nat), rest) = (n, r) :=
      Option.some.inj h
    have hr : rest = r := congrArg Prod.snd h'
    subst hr
    exact ⟨a, b, c, d, rfl, by simp [ha], by simp [hb], by simp [hc], by simp [hd]⟩

/-- An escape decode consumes either nothing extra or four hex digits. -/
theorem escDecode_consumes {e : Char} {rest2 : List Char} {d : Char}
    {r2 : List Char} (h : escDecode e rest2 = some (d, r2)) :
    r2 = rest2 ∨
    ∃ a b c d', rest2 = a :: b :: c :: d' :: r2 ∧ (hexVal a).isSome = true ∧
      (hexVal b).isSome = true ∧ (hexVal c).isSome = true ∧
      (hexVal d').isSome = true := by
  unfold escDecode at h
  split_ifs at h with h1 h2 h3 h4 h5 h6 h7 h8 h9
  · exact Or.inl (congrArg Prod.snd (Option.some.inj h)).symm
  · exact Or.inl (congrArg Prod.snd (Option.some.inj h)).symm
  · exact Or.inl (congrArg Prod.snd (Option.some.inj h)).symm
  · exact Or.inl (congrArg Prod.snd (Option.some.inj h)).symm
  · exact Or.inl (congrArg Prod.snd (Option.some.inj h)).symm
  · exact Or.inl (congrArg Prod.snd (Option.some.inj h)).symm
  · exact Or.inl (congrArg Prod.snd (Option.some.inj h)).symm
  · exact Or.inl (congrArg Prod.snd (Option.some.inj h)).symm
  · rcases hh : parseHex4 rest2 with _ | ⟨n, rest3⟩
    · rw [hh] at h
      exact Option.noConfusion h
    · rw [hh] at h
      have hr : rest3 = r2 := congrArg Prod.snd (Option.some.inj h)
      subst hr
      obtain ⟨a, b, c, d', hdec, hA, hB, hC, hD⟩ := parseHex4_consumes hh
      exact Or.inr ⟨a, b, c, d', hdec, hA, hB, hC, hD⟩

/-- One non-stopping character, then the rest: the scan result is `none`
when the continuation finds nothing. -/
theorem scan_cons_none {c : Char} {st st' : ScanSt} {rest : List Char}
    (hstop : stops st c = false) (hstep : stepSt st c = st')
    (hrest : findEndFrom rest st' = none) :
    findEndFrom (c :: rest) st = none := by
  rw [findEndFrom, if_neg (by simp [hstop]), hstep, hrest]
  rfl

/-- One non-stopping character, then the rest: the scan result shifts by
one when the continuation finds an index. -/
theorem scan_cons_some {c : Char} {st st' : ScanSt} {rest : List Char} {j : Nat}
    (hstop : stops st c = false) (hstep : stepSt st c = st')
    (hrest : findEndFrom rest st' = some j) :
    findEndFrom (c :: rest) st = some (j + 1) := by
  rw [findEndFrom, if_neg (by simp [hstop]), hstep, hrest]
  rfl

/-- Folding one character. -/
theorem fold_cons {c : Char} {st st' : ScanSt} (rest : List Char)
    (hstep : stepSt st c = st') :
    (c :: rest).foldl stepSt st = rest.foldl stepSt st' := by
  rw [List.foldl_cons, hstep]

/-- A segment of non-quote non-backslash characters seen inside a string is
neutral and cannot stop the scan. -/
theorem scan_inStr_seg :
    ∀ (seg : List Char) (ob obk : Int), (∀ x ∈ seg, x ≠ '"' ∧ x ≠ '\\') →
      findEndFrom seg ⟨ob, obk, true, false⟩ = none ∧
      seg.foldl stepSt ⟨ob, obk, true, false⟩ = ⟨ob, obk, true, false⟩ := by
  intro seg
  induction seg with
  | nil => intro ob obk _; exact ⟨rfl, rfl⟩
  | cons c rest ih =>
    intro ob obk h
    have hc := h c (List.mem_cons_self c rest)
    have hrest := fun d hd => h d (List.mem_cons_of_mem c hd)
    have hstep : stepSt ⟨ob, obk, true, false⟩ c = ⟨ob, obk, true, false⟩ :=
      stepSt_inStr rfl rfl hc.1 hc.2
    obtain ⟨ih1, ih2⟩ := ih ob obk hrest
    exact ⟨scan_cons_none (stops_inStr rfl) hstep ih1, fold_cons rest hstep ▸ ih2⟩

/-- The scan of a parsed JSON string body from inside-string state: it
consumes the body, never stops, and ends outside the string with the
counters untouched. -/
theorem scan_stringBody :
    ∀ (fuel : Nat) (l s r : List Char), parseStringBody fuel l = some (s, r) →
      ∃ seg, l = seg ++ r ∧ ∀ (ob obk : Int),
        findEndFrom seg ⟨ob, obk, true, false⟩ = none ∧
        seg.foldl stepSt ⟨ob, obk, true, false⟩ = ⟨ob, obk, false, false⟩ := by
  intro fuel
  induction fuel with
  | zero => intro l s r h; exact absurd h (by simp [parseStringBody])
  | succ n ih =>
    intro l s r h
    cases l with
    | nil => exact absurd h (by simp [parseStringBody])
    | cons c rest =>
      rw [parseStringBody.eq_def] at h
      dsimp only at h
      by_cases hq : c = '"'
      · subst hq
        rw [if_pos rfl] at h
        have hr : rest = r := congrArg Prod.snd (Option.some.inj h)
        subst hr
        refine ⟨['"'], rfl, ?_⟩
        intro ob obk
        constructor
        · exact scan_cons_none (by simp [stops])
            (show stepSt ⟨ob, obk, true, false⟩ '"' = ⟨ob, obk, false, false⟩ by
              simp [stepSt]) rfl
        · simp [stepSt]
      · rw [if_neg hq] at h
        by_cases hb : c = '\\'
        · subst hb
          rw [if_pos rfl] at h
          cases rest with
          | nil => exact Option.noConfusion h
          | cons e rest2 =>
            dsimp only at h
            rcases hesc : escDecode e rest2 with _ | ⟨d, r2⟩
            · rw [hesc] at h; exact Option.noConfusion h
            rw [hesc] at h
            dsimp only at h
            rcases hps : parseStringBody n r2 with _ | ⟨s', r3⟩
            · rw [hps] at h; exact Option.noConfusion h
            rw [hps] at h
            dsimp only at h
            have hr : r3 = r := congrArg Prod.snd (Option.some.inj h)
            subst hr
            obtain ⟨seg', hseg', hscan'⟩ := ih r2 s' r3 hps
            rcases escDecode_consumes hesc with hsimple | ⟨a, b, c', d', hr2, hA, hB, hC, hD⟩
            · subst hsimple
              refine ⟨'\\' :: e :: seg', by simp [hseg'], ?_⟩
              intro ob obk
              obtain ⟨hs1, hs2⟩ := hscan' ob obk
              have t1 : stepSt ⟨ob, obk, true, false⟩ '\\' = ⟨ob, obk, true, true⟩ := by
                simp [stepSt]
              have t2 : stepSt ⟨ob, obk, true, true⟩ e = ⟨ob, obk, true, false⟩ := by
                simp [stepSt]
              constructor
              · exact scan_cons_none (by simp [stops]) t1
                  (scan_cons_none (by simp [stops]) t2 hs1)
              · rw [fold_cons _ t1, fold_cons _ t2, hs2]
            · subst hr2
              refine ⟨'\\' :: e :: a :: b :: c' :: d' :: seg', by simp [hseg'], ?_⟩
              intro ob obk
              obtain ⟨hs1, hs2⟩ := hscan' ob obk
              have t1 : stepSt ⟨ob, obk, true, false⟩ '\\' = ⟨ob, obk, true, true⟩ := by
                simp [stepSt]
              have t2 : stepSt ⟨ob, obk, true, true⟩ e = ⟨ob, obk, true, false⟩ := by
                simp [stepSt]
              have hA' := hexVal_not_structural hA
              have hB' := hexVal_not_structural hB
              have hC' := hexVal_not_structural hC
              have hD' := hexVal_not_structural hD
              have ta : stepSt ⟨ob, obk, true, false⟩ a = ⟨ob, obk, true, false⟩ :=
                stepSt_inStr rfl rfl hA'.1 hA'.2
              have tb : stepSt ⟨ob, obk, true, false⟩ b = ⟨ob, obk, true, false⟩ :=
                stepSt_inStr rfl rfl hB'.1 hB'.2
              have tc : stepSt ⟨ob, obk, true, false⟩ c' = ⟨ob, obk, true, false⟩ :=
                stepSt_inStr rfl rfl hC'.1 hC'.2
              have td : stepSt ⟨ob, obk, true, false⟩ d' = ⟨ob, obk, true, false⟩ :=
                stepSt_inStr rfl rfl hD'.1 hD'.2
              constructor
              · exact scan_cons_none (by simp [stops]) t1
                  (scan_cons_none (by simp [stops]) t2
                    (scan_cons_none (stops_inStr rfl) ta
                      (scan_cons_none (stops_inStr rfl) tb
                        (scan_cons_none (stops_inStr rfl) tc
                          (scan_cons_none (stops_inStr rfl) td hs1)))))
              · rw [fold_cons _ t1, fold_cons _ t2, fold_cons _ ta, fold_cons _ tb,
                  fold_cons _ tc, fold_cons _ td, hs2]
        · rw [if_neg hb] at h
          by_cases hctl : c.toNat < 0x20
          · rw [if_pos hctl] at h
            exact Option.noConfusion h
          · rw [if_neg hctl] at h
            rcases hps : parseStringBody n rest with _ | ⟨s', r2⟩
            · rw [hps] at h; exact Option.noConfusion h
            rw [hps] at h
            have hr : r2 = r := congrArg Prod.snd (Option.some.inj h)
            subst hr
            obtain ⟨seg', hseg', hscan'⟩ := ih rest s' r2 hps
            refine ⟨c :: seg', by simp [hseg'], ?_⟩
            intro ob obk
            obtain ⟨hs1, hs2⟩ := hscan' ob obk
            have tc : stepSt ⟨ob, obk, true, false⟩ c = ⟨ob, obk, true, false⟩ :=
              stepSt_inStr rfl rfl hq hb
            exact ⟨scan_cons_none (stops_inStr rfl) tc hs1, fold_cons seg' tc ▸ hs2⟩

/-- `dropWhile` is `drop` of the `takeWhile` length. -/
theorem dropWhile_eq_drop_len (p : Char → Bool) :
    ∀ l : List Char, l.dropWhile p = l.drop (l.takeWhile p).length := by
  intro l
  induction l with
  | nil => rfl
  | cons c r ih =>
    by_cases h : p c
    · simp [List.dropWhile_cons, List.takeWhile_cons, h, ih]
    · simp [List.dropWhile_cons, List.takeWhile_cons, h]

/-- Splitting a list at the end of its `takeWhile` prefix. -/
theorem takeWhile_drop_split (p : Char → Bool) (l : List Char) :
    l = l.takeWhile p ++ l.drop (l.takeWhile p).length := by
  rw [← dropWhile_eq_drop_len]
  exact (List.takeWhile_append_dropWhile p l).symm

/-- A decimal digit is not structural for the scan. -/
theorem plain_of_digit {c : Char} (h : digitCh c = true) : plainChar c = true := by
  simp only [digitCh, Bool.and_eq_true, decide_eq_true_eq] at h
  obtain ⟨h1, h2⟩ := h
  simp only [plainChar, Bool.not_eq_true', Bool.or_eq_false_iff,
    decide_eq_false_iff_not]
  refine ⟨⟨⟨⟨⟨?_, ?_⟩, ?_⟩, ?_⟩, ?_⟩, ?_⟩ <;> rintro rfl <;> revert h1 h2 <;> decide

/-- `parseDigitsRun` consumes a nonempty run of plain characters. -/
theorem parseDigitsRun_spec {l d r : List Char}
    (h : parseDigitsRun l = some (d, r)) :
    l = d ++ r ∧ d ≠ [] ∧ ∀ c ∈ d, plainChar c = true := by
  unfold parseDigitsRun at h
  dsimp only at h
  split_ifs at h with he
  have hd : l.takeWhile digitCh = d := congrArg Prod.fst (Option.some.inj h)
  have hr : l.drop (l.takeWhile digitCh).length = r := by
    have := congrArg Prod.snd (Option.some.inj h)
    simpa [hd] using this
  refine ⟨by rw [← hd, ← hr]; exact takeWhile_drop_split digitCh l, ?_, ?_⟩
  · intro hnil
    apply he
    rw [hd, hnil]
    rfl
  · intro c hc
    rw [← hd] at hc
    exact plain_of_digit (List.mem_takeWhile_imp hc)

/-- `parseIntPart` consumes nonempty plain characters. -/
theorem parseIntPart_spec {l ip r : List Char}
    (h : parseIntPart l = some (ip, r)) :
    l = ip ++ r ∧ ip ≠ [] ∧ ∀ c ∈ ip, plainChar c = true := by
  cases l with
  | nil => exact absurd h (by simp [parseIntPart])
  | cons c rest =>
    rw [parseIntPart] at h
    split_ifs at h with h0 hd
    · subst h0
      have h1 : (['0'] : List Char) = ip := congrArg Prod.fst (Option.some.inj h)
      have h2 : rest = r := congrArg Prod.snd (Option.some.inj h)
      subst h2
      rw [← h1]
      exact ⟨rfl, by simp, by intro x hx; simp at hx; subst hx; decide⟩
    · have h1 : c :: rest.takeWhile digitCh = ip := congrArg Prod.fst (Option.some.inj h)
      have h2 : rest.dropWhile digitCh = r := congrArg Prod.snd (Option.some.inj h)
      subst h2
      rw [← h1]
      refine ⟨by simpa using congrArg (c :: ·) (List.takeWhile_append_dropWhile digitCh rest).symm, by simp, ?_⟩
      intro x hx
      rcases List.mem_cons.mp hx with rfl | hx2
      · exact plain_of_digit hd
      · exact plain_of_digit (List.mem_takeWhile_imp hx2)

/-- `parseFracPart` consumes plain characters. -/
theorem parseFracPart_spec {l fp r : List Char}
    (h : parseFracPart l = some (fp, r)) :
    l = fp ++ r ∧ ∀ c ∈ fp, plainChar c = true := by
  unfold parseFracPart at h
  split at h
  · rename_i r0
    rcases hd : parseDigitsRun r0 with _ | ⟨d, r'⟩
    · rw [hd] at h; exact Option.noConfusion h
    · rw [hd] at h
      have h1 : '.' :: d = fp := congrArg Prod.fst (Option.some.inj h)
      have h2 : r' = r := congrArg Prod.snd (Option.some.inj h)
      subst h2
      obtain ⟨hdec, _, hplain⟩ := parseDigitsRun_spec hd
      rw [← h1]
      refine ⟨by simp [hdec], ?_⟩
      intro x hx
      rcases List.mem_cons.mp hx with rfl | hx2
      · decide
      · exact hplain x hx2
  · have h1 : ([] : List Char) = fp := congrArg Prod.fst (Option.some.inj h)
    have h2 : l = r := congrArg Prod.snd (Option.some.inj h)
    rw [← h1, ← h2]
    exact ⟨rfl, by simp⟩

/-- `parseExpPart` consumes plain characters. -/
theorem parseExpPart_spec {l ep r : List Char}
    (h : parseExpPart l = some (ep, r)) :
    l = ep ++ r ∧ ∀ c ∈ ep, plainChar c = true := by
  unfold parseExpPart at h
  split at h
  · rename_i c r0
    split_ifs at h with hE
    · split at h
      · rename_i s2 r2
        split_ifs at h with hS
        · rcases hd : parseDigitsRun r2 with _ | ⟨d, r'⟩
          · rw [hd] at h; exact Option.noConfusion h
          · rw [hd] at h
            have h1 : c :: s2 :: d = ep := congrArg Prod.fst (Option.some.inj h)
            have h2 : r' = r := congrArg Prod.snd (Option.some.inj h)
            subst h2
            obtain ⟨hdec, _, hplain⟩ := parseDigitsRun_spec hd
            rw [← h1]
            constructor
            · simp [hdec]
            · intro x hx
              have hE2 : c = 'e' ∨ c = 'E' := by simpa using hE
              have hS2 : s2 = '+' ∨ s2 = '-' := by simpa using hS
              rcases List.mem_cons.mp hx with rfl | hx2
              · rcases hE2 with rfl | rfl <;> decide
              · rcases List.mem_cons.mp hx2 with rfl | hx3
                · rcases hS2 with rfl | rfl <;> decide
                · exact hplain x hx3
        · rcases hd : parseDigitsRun (s2 :: r2) with _ | ⟨d, r'⟩
          · rw [hd] at h; exact Option.noConfusion h
          · rw [hd] at h
            have h1 : c :: d = ep := congrArg Prod.fst (Option.some.inj h)
            have h2 : r' = r := congrArg Prod.snd (Option.some.inj h)
            subst h2
            obtain ⟨hdec, _, hplain⟩ := parseDigitsRun_spec hd
            rw [← h1]
            constructor
            · simp [hdec]
            · intro x hx
              have hE2 : c = 'e' ∨ c = 'E' := by simpa using hE
              rcases List.mem_cons.mp hx with rfl | hx2
              · rcases hE2 with rfl | rfl <;> decide
              · exact hplain x hx2
      · exact Option.noConfusion h
    · have h1 : ([] : List Char) = ep := congrArg Prod.fst (Option.some.inj h)
      have h2 : c :: r0 = r := congrArg Prod.snd (Option.some.inj h)
      rw [← h1, ← h2]
      exact ⟨rfl, by simp⟩
  · have h1 : ([] : List Char) = ep := congrArg Prod.fst (Option.some.inj h)
    have h2 : ([] : List Char) = r := congrArg Prod.snd (Option.some.inj h)
    rw [← h1, ← h2]
    exact ⟨rfl, by simp⟩

/-- The sign split decomposes the input into plain characters and a rest. -/
theorem parseSign_spec (l : List Char) :
    l = (parseSign l).1 ++ (parseSign l).2 ∧
    ∀ c ∈ (parseSign l).1, plainChar c = true := by
  unfold parseSign
  split
  · exact ⟨rfl, by intro c hc; simp at hc; subst hc; decide⟩
  · exact ⟨rfl, by simp⟩

/-- `parseNumber` consumes a nonempty segment of plain characters. -/
theorem parseNumber_spec {l s r : List Char}
    (h : parseNumber l = some (s, r)) :
    l = s ++ r ∧ s ≠ [] ∧ ∀ c ∈ s, plainChar c = true := by
  unfold parseNumber at h
  dsimp only at h
  rcases hip : parseIntPart (parseSign l).2 with _ | ⟨ip, l2⟩
  · rw [hip] at h; exact Option.noConfusion h
  rw [hip] at h
  dsimp only at h
  rcases hfp : parseFracPart l2 with _ | ⟨fp, l3⟩
  · rw [hfp] at h; exact Option.noConfusion h
  rw [hfp] at h
  dsimp only at h
  rcases hep : parseExpPart l3 with _ | ⟨ep, l4⟩
  · rw [hep] at h; exact Option.noConfusion h
  rw [hep] at h
  dsimp only at h
  have h1 : (parseSign l).1 ++ ip ++ fp ++ ep = s := congrArg Prod.fst (Option.some.inj h)
  have h2 : l4 = r := congrArg Prod.snd (Option.some.inj h)
  subst h2
  obtain ⟨hsgn, hsplain⟩ := parseSign_spec l
  obtain ⟨hipd, hipne, hipplain⟩ := parseIntPart_spec hip
  obtain ⟨hfpd, hfpplain⟩ := parseFracPart_spec hfp
  obtain ⟨hepd, hepplain⟩ := parseExpPart_spec hep
  rw [← h1]
  refine ⟨?_, ?_, ?_⟩
  · conv_lhs => rw [hsgn, hipd, hfpd, hepd]
    simp
  · intro hnil
    rcases List.append_eq_nil.mp hnil with ⟨hnil2, _⟩
    rcases List.append_eq_nil.mp hnil2 with ⟨hnil3, _⟩
    rcases List.append_eq_nil.mp hnil3 with ⟨_, hnil4⟩
    exact hipne hnil4
  · intro c hc
    simp only [List.append_assoc, List.mem_append] at hc
    rcases hc with hc | hc | hc | hc
    · exact hsplain c hc
    · exact hipplain c hc
    · exact hfpplain c hc
    · exact hepplain c hc

/-- Opening brace step. -/
theorem stepSt_lbrace (ob obk : Int) :
    stepSt ⟨ob, obk, false, false⟩ lbrace = ⟨ob + 1, obk, false, false⟩ := rfl

/-- Closing brace step. -/
theorem stepSt_rbrace (ob obk : Int) :
    stepSt ⟨ob, obk, false, false⟩ rbrace = ⟨ob - 1, obk, false, false⟩ := rfl

/-- Opening bracket step. -/
theorem stepSt_lbrack (ob obk : Int) :
    stepSt ⟨ob, obk, false, false⟩ '[' = ⟨ob, obk + 1, false, false⟩ := rfl

/-- Closing bracket step. -/
theorem stepSt_rbrack (ob obk : Int) :
    stepSt ⟨ob, obk, false, false⟩ ']' = ⟨ob, obk - 1, false, false⟩ := rfl

/-- The scan never stops at an opener. -/
theorem stops_lbrace (st : ScanSt) : stops st lbrace = false := by
  simp [stops, lbrace, rbrace]

/-- The scan never stops at an opening bracket. -/
theorem stops_lbrack (st : ScanSt) : stops st '[' = false := by
  simp [stops, lbrace, rbrace]

/-- The stop test at a closing brace from a good state is the balance test
on the decremented counters. -/
theorem stops_rbrace_eq (ob obk : Int) :
    stops ⟨ob, obk, false, false⟩ rbrace =
      (decide (ob - 1 = 0) && decide (obk = 0)) := by
  simp [stops, stepSt, rbrace, lbrace]

/-- The scan stops at a closing brace that balances both counters. -/
theorem stops_rbrace_true {ob obk : Int} (h1 : ob = 1) (h2 : obk = 0) :
    stops ⟨ob, obk, false, false⟩ rbrace = true := by
  subst h1; subst h2; decide

/-- A closing brace that does not balance both counters does not stop the
scan. -/
theorem stops_rbrace_false {ob obk : Int} (h : ¬(ob = 1 ∧ obk = 0)) :
    stops ⟨ob, obk, false, false⟩ rbrace = false := by
  rw [stops_rbrace_eq]
  rcases Decidable.em (ob = 1) with h1 | h1
  · subst h1
    have h2 : ¬(obk = 0) := fun hk => h ⟨rfl, hk⟩
    simp [h2]
  · have h2 : ¬(ob - 1 = 0) := by omega
    simp [h2]

/-- The stop test at a closing bracket from a good state is the balance
test on the decremented counters. -/
theorem stops_rbrack_eq (ob obk : Int) :
    stops ⟨ob, obk, false, false⟩ ']' =
      (decide (ob = 0) && decide (obk - 1 = 0)) := by
  simp [stops, stepSt, rbrace, lbrace]

/-- The scan stops at a closing bracket that balances both counters. -/
theorem stops_rbrack_true {ob obk : Int} (h1 : ob = 0) (h2 : obk = 1) :
    stops ⟨ob, obk, false, false⟩ ']' = true := by
  subst h1; subst h2; decide

/-- A closing bracket that does not balance both counters does not stop the
scan. -/
theorem stops_rbrack_false {ob obk : Int} (h : ¬(ob = 0 ∧ obk = 1)) :
    stops ⟨ob, obk, false, false⟩ ']' = false := by
  rw [stops_rbrack_eq]
  rcases Decidable.em (ob = 0) with h1 | h1
  · subst h1
    have h2 : ¬(obk - 1 = 0) := by omega
    simp [h2]
  · simp [h1]

/-- Decomposition at `skipJsonWs`. -/
theorem skipJsonWs_decomp {l m : List Char} (h : skipJsonWs l = m) :
    l = l.takeWhile jsonWs ++ m := by
  rw [← h]
  exact (List.takeWhile_append_dropWhile jsonWs l).symm

/-- JSON whitespace segments are neutral. -/
theorem scan_ws (l : List Char) (ob obk : Int) :
    findEndFrom (l.takeWhile jsonWs) ⟨ob, obk, false, false⟩ = none ∧
    (l.takeWhile jsonWs).foldl stepSt ⟨ob, obk, false, false⟩ =
      ⟨ob, obk, false, false⟩ :=
  scan_plain_seg _ ob obk (fun _ hc => plain_of_jsonWs (List.mem_takeWhile_imp hc))

theorem neutralAt_append {st : ScanSt} {a b : List Char}
    (ha : neutralAt st a) (hb : neutralAt st b) : neutralAt st (a ++ b) := by
  obtain ⟨e1, e2⟩ := neutral_extend ha.1 ha.2 b
  constructor
  · rw [e1, hb.1]; rfl
  · rw [e2, hb.2]

theorem neutralAt_find_some {st : ScanSt} {a b : List Char} {j : Nat}
    (ha : neutralAt st a) (hb : findEndFrom b st = some j) :
    findEndFrom (a ++ b) st = some (j + a.length) := by
  rw [(neutral_extend ha.1 ha.2 b).1, hb]
  rfl

theorem neutralAt_find {st : ScanSt} {a b : List Char}
    (ha : neutralAt st a) :
    findEndFrom (a ++ b) st = (findEndFrom b st).map (· + a.length) :=
  (neutral_extend ha.1 ha.2 b).1

theorem neutralAt_fold {st : ScanSt} {a b : List Char}
    (ha : neutralAt st a) :
    (a ++ b).foldl stepSt st = b.foldl stepSt st :=
  (neutral_extend ha.1 ha.2 b).2

/-- `neutralAt` for whitespace prefixes. -/
theorem neutralAt_ws (l : List Char) (ob obk : Int) :
    neutralAt ⟨ob, obk, false, false⟩ (l.takeWhile jsonWs) :=
  ⟨(scan_ws l ob obk).1, (scan_ws l ob obk).2⟩

/-- `neutralAt` for a quoted string (the opening quote and a parsed
body). -/
theorem neutralAt_string {fuel : Nat} {l s r : List Char}
    (h : parseStringBody fuel l = some (s, r)) :
    ∃ segS, l = segS ++ r ∧ ∀ ob obk : Int,
      neutralAt ⟨ob, obk, false, false⟩ ('"' :: segS) := by
  obtain ⟨segS, hsegS, hscanS⟩ := scan_stringBody fuel l s r h
  refine ⟨segS, hsegS, ?_⟩
  intro ob obk
  obtain ⟨s1, sf⟩ := hscanS ob obk
  have tq : stepSt ⟨ob, obk, false, false⟩ '"' = ⟨ob, obk, true, false⟩ := by
    simp [stepSt]
  exact ⟨scan_cons_none (by simp [stops]) tq s1, by rw [fold_cons _ tq, sf]⟩

theorem json_scan :
    ∀ fuel : Nat,
      (∀ l v r, parseValue fuel l = some (v, r) →
        ∃ seg, l = seg ++ r ∧ seg ≠ [] ∧
          (∀ ob obk : Int, 0 ≤ ob → 0 ≤ obk → ¬(ob = 0 ∧ obk = 0) →
            findEndFrom seg ⟨ob, obk, false, false⟩ = none ∧
            seg.foldl stepSt ⟨ob, obk, false, false⟩ = ⟨ob, obk, false, false⟩) ∧
          (v.isContainer = true →
            findEndFrom seg ⟨0, 0, false, false⟩ = some (seg.length - 1)) ∧
          (v.isContainer = false →
            findEndFrom seg ⟨0, 0, false, false⟩ = none ∧
            seg.foldl stepSt ⟨0, 0, false, false⟩ = ⟨0, 0, false, false⟩)) ∧
      (∀ l kvs r, parseMembers fuel l = some (kvs, r) →
        ∃ seg, l = seg ++ r ∧ seg ≠ [] ∧
          ∀ ob obk : Int, 1 ≤ ob → 0 ≤ obk →
            (¬(ob = 1 ∧ obk = 0) →
              findEndFrom seg ⟨ob, obk, false, false⟩ = none ∧
              seg.foldl stepSt ⟨ob, obk, false, false⟩ =
                ⟨ob - 1, obk, false, false⟩) ∧
            ((ob = 1 ∧ obk = 0) →
              findEndFrom seg ⟨ob, obk, false, false⟩ = some (seg.length - 1))) ∧
      (∀ l xs r, parseElements fuel l = some (xs, r) →
        ∃ seg, l = seg ++ r ∧ seg ≠ [] ∧
          ∀ ob obk : Int, 0 ≤ ob → 1 ≤ obk →
            (¬(ob = 0 ∧ obk = 1) →
              findEndFrom seg ⟨ob, obk, false, false⟩ = none ∧
              seg.foldl stepSt ⟨ob, obk, false, false⟩ =
                ⟨ob, obk - 1, false, false⟩) ∧
            ((ob = 0 ∧ obk = 1) →
              findEndFrom seg ⟨ob, obk, false, false⟩ = some (seg.length - 1))) := by
  intro fuel
  induction fuel with
  | zero =>
    refine ⟨?_, ?_, ?_⟩ <;> intro l a r h <;>
      simp [parseValue, parseMembers, parseElements] at h
  | succ n ih =>
    obtain ⟨ihV, ihM, ihE⟩ := ih
    refine ⟨?_, ?_, ?_⟩
    · -- parseValue
      intro l v r h
      cases l with
      | nil => rw [parseValue] at h; exact Option.noConfusion h
      | cons c rest =>
        rw [parseValue] at h
        by_cases hcb : c = lbrace
        · subst hcb
          rw [if_pos rfl] at h
          rcases hws : skipJsonWs rest with _ | ⟨d, r2⟩
          · rw [hws] at h; exact Option.noConfusion h
          rw [hws] at h
          dsimp only at h
          have hrest := skipJsonWs_decomp hws
          by_cases hd : d = rbrace
          · subst hd
            rw [if_pos rfl] at h
            have hv : Json.obj [] = v := congrArg Prod.fst (Option.some.inj h)
            have hr : r2 = r := congrArg Prod.snd (Option.some.inj h)
            subst hr
            refine ⟨lbrace :: (rest.takeWhile jsonWs ++ [rbrace]), ?_, by simp,
              ?_, ?_, ?_⟩
            · simp only [List.cons_append, List.append_assoc, List.cons.injEq,
                true_and, List.singleton_append]
              exact hrest
            · intro ob obk hob hobk hnz
              obtain ⟨w1, w2⟩ := scan_ws rest (ob + 1) obk
              have stopc : stops ⟨ob + 1, obk, false, false⟩ rbrace = false :=
                stops_rbrace_false (by omega)
              have t3 : stepSt ⟨ob + 1, obk, false, false⟩ rbrace =
                  ⟨ob, obk, false, false⟩ := by
                rw [stepSt_rbrace, show (ob + 1 - 1 : Int) = ob from by omega]
              have hone : findEndFrom [rbrace] ⟨ob + 1, obk, false, false⟩ = none :=
                scan_cons_none stopc t3 rfl
              obtain ⟨e1, e2⟩ := neutral_extend w1 w2 [rbrace]
              rw [hone] at e1
              constructor
              · exact scan_cons_none (stops_lbrace _) (stepSt_lbrace ob obk)
                  (by rw [e1]; rfl)
              · rw [fold_cons _ (stepSt_lbrace ob obk), e2, List.foldl_cons,
                  List.foldl_nil, t3]
            · intro _
              obtain ⟨w1, w2⟩ := scan_ws rest 1 0
              have stopc : stops ⟨1, 0, false, false⟩ rbrace = true :=
                stops_rbrace_true rfl rfl
              have hone : findEndFrom [rbrace] ⟨1, 0, false, false⟩ = some 0 := by
                rw [findEndFrom, if_pos (by rw [stopc])]
              obtain ⟨e1, e2⟩ := neutral_extend w1 w2 [rbrace]
              rw [hone] at e1
              have t0 : stepSt ⟨0, 0, false, false⟩ lbrace =
                  ⟨1, 0, false, false⟩ := by
                rw [stepSt_lbrace, show ((0 : Int) + 1) = 1 from by norm_num]
              have : findEndFrom (lbrace :: (rest.takeWhile jsonWs ++ [rbrace]))
                  ⟨0, 0, false, false⟩ =
                  some ((rest.takeWhile jsonWs).length + 1) := by
                apply scan_cons_some (stops_lbrace _) t0
                rw [e1]
                simp
              rw [this]
              simp
            · intro hscal
              rw [← hv] at hscal
              exact absurd hscal (by simp [Json.isContainer])
          · rw [if_neg hd] at h
            rcases hm : parseMembers n (d :: r2) with _ | ⟨kvs, r3⟩
            · rw [hm] at h; exact Option.noConfusion h
            rw [hm] at h
            dsimp only at h
            have hv : Json.obj kvs = v := congrArg Prod.fst (Option.some.inj h)
            have hr : r3 = r := congrArg Prod.snd (Option.some.inj h)
            subst hr
            obtain ⟨segM, hsegM, hMne, hM⟩ := ihM _ _ _ hm
            refine ⟨lbrace :: (rest.takeWhile jsonWs ++ segM), ?_, by simp,
              ?_, ?_, ?_⟩
            · simp only [List.cons_append, List.append_assoc, List.cons.injEq,
                true_and]
              conv_lhs => rw [hrest, hsegM]
            · intro ob obk hob hobk hnz
              obtain ⟨w1, w2⟩ := scan_ws rest (ob + 1) obk
              obtain ⟨hMn, _⟩ := hM (ob + 1) obk (by omega) hobk
              obtain ⟨m1, m2⟩ := hMn (by omega)
              obtain ⟨e1, e2⟩ := neutral_extend w1 w2 segM
              rw [m1] at e1
              constructor
              · exact scan_cons_none (stops_lbrace _) (stepSt_lbrace ob obk)
                  (by rw [e1]; rfl)
              · rw [fold_cons _ (stepSt_lbrace ob obk), e2, m2,
                  show (ob + 1 - 1 : Int) = ob from by omega]
            · intro _
              obtain ⟨w1, w2⟩ := scan_ws rest 1 0
              obtain ⟨_, hMs⟩ := hM 1 0 le_rfl le_rfl
              have m1 := hMs ⟨rfl, rfl⟩
              obtain ⟨e1, e2⟩ := neutral_extend w1 w2 segM
              rw [m1] at e1
              have hlen : 1 ≤ segM.length := by
                cases segM with
                | nil => exact absurd rfl hMne
                | cons a b => simp
              have t0 : stepSt ⟨0, 0, false, false⟩ lbrace =
                  ⟨1, 0, false, false⟩ := by
                rw [stepSt_lbrace, show ((0 : Int) + 1) = 1 from by norm_num]
              have : findEndFrom (lbrace :: (rest.takeWhile jsonWs ++ segM))
                  ⟨0, 0, false, false⟩ =
                  some (segM.length - 1 + (rest.takeWhile jsonWs).length + 1) := by
                apply scan_cons_some (stops_lbrace _) t0
                rw [e1]
                rfl
              rw [this]
              simp only [List.length_cons, List.length_append]
              congr 1
              omega
            · intro hscal
              rw [← hv] at hscal
              exact absurd hscal (by simp [Json.isContainer])
        · rw [if_neg hcb] at h
          by_cases hck : c = '['
          · subst hck
            rw [if_pos rfl] at h
            rcases hws : skipJsonWs rest with _ | ⟨d, r2⟩
            · rw [hws] at h; exact Option.noConfusion h
            rw [hws] at h
            dsimp only at h
            have hrest := skipJsonWs_decomp hws
            by_cases hd : d = ']'
            · subst hd
              rw [if_pos rfl] at h
              have hv : Json.arr [] = v := congrArg Prod.fst (Option.some.inj h)
              have hr : r2 = r := congrArg Prod.snd (Option.some.inj h)
              subst hr
              refine ⟨'[' :: (rest.takeWhile jsonWs ++ [']']), ?_, by simp,
                ?_, ?_, ?_⟩
              · simp only [List.cons_append, List.append_assoc, List.cons.injEq,
                  true_and, List.singleton_append]
                exact hrest
              · intro ob obk hob hobk hnz
                obtain ⟨w1, w2⟩ := scan_ws rest ob (obk + 1)
                have stopc : stops ⟨ob, obk + 1, false, false⟩ ']' = false :=
                  stops_rbrack_false (by omega)
                have t3 : stepSt ⟨ob, obk + 1, false, false⟩ ']' =
                    ⟨ob, obk, false, false⟩ := by
                  rw [stepSt_rbrack, show (obk + 1 - 1 : Int) = obk from by omega]
                have hone : findEndFrom [']'] ⟨ob, obk + 1, false, false⟩ = none :=
                  scan_cons_none stopc t3 rfl
                obtain ⟨e1, e2⟩ := neutral_extend w1 w2 [']']
                rw [hone] at e1
                constructor
                · exact scan_cons_none (stops_lbrack _) (stepSt_lbrack ob obk)
                    (by rw [e1]; rfl)
                · rw [fold_cons _ (stepSt_lbrack ob obk), e2, List.foldl_cons,
                    List.foldl_nil, t3]
              · intro _
                obtain ⟨w1, w2⟩ := scan_ws rest 0 1
                have stopc : stops ⟨0, 1, false, false⟩ ']' = true :=
                  stops_rbrack_true rfl rfl
                have hone : findEndFrom [']'] ⟨0, 1, false, false⟩ = some 0 := by
                  rw [findEndFrom, if_pos (by rw [stopc])]
                obtain ⟨e1, e2⟩ := neutral_extend w1 w2 [']']
                rw [hone] at e1
                have t0 : stepSt ⟨0, 0, false, false⟩ '[' =
                    ⟨0, 1, false, false⟩ := by
                  rw [stepSt_lbrack, show ((0 : Int) + 1) = 1 from by norm_num]
                have : findEndFrom ('[' :: (rest.takeWhile jsonWs ++ [']']))
                    ⟨0, 0, false, false⟩ =
                    some ((rest.takeWhile jsonWs).length + 1) := by
                  apply scan_cons_some (stops_lbrack _) t0
                  rw [e1]
                  simp
                rw [this]
                simp
              · intro hscal
                rw [← hv] at hscal
                exact absurd hscal (by simp [Json.isContainer])
            · rw [if_neg hd] at h
              rcases hm : parseElements n (d :: r2) with _ | ⟨xs, r3⟩
              · rw [hm] at h; exact Option.noConfusion h
              rw [hm] at h
              dsimp only at h
              have hv : Json.arr xs = v := congrArg Prod.fst (Option.some.inj h)
              have hr : r3 = r := congrArg Prod.snd (Option.some.inj h)
              subst hr
              obtain ⟨segE, hsegE, hEne, hE⟩ := ihE _ _ _ hm
              refine ⟨'[' :: (rest.takeWhile jsonWs ++ segE), ?_, by simp,
                ?_, ?_, ?_⟩
              · simp only [List.cons_append, List.append_assoc, List.cons.injEq,
                  true_and]
                conv_lhs => rw [hrest, hsegE]
              · intro ob obk hob hobk hnz
                obtain ⟨w1, w2⟩ := scan_ws rest ob (obk + 1)
                obtain ⟨hEn, _⟩ := hE ob (obk + 1) hob (by omega)
                obtain ⟨m1, m2⟩ := hEn (by omega)
                obtain ⟨e1, e2⟩ := neutral_extend w1 w2 segE
                rw [m1] at e1
                constructor
                · exact scan_cons_none (stops_lbrack _) (stepSt_lbrack ob obk)
                    (by rw [e1]; rfl)
                · rw [fold_cons _ (stepSt_lbrack ob obk), e2, m2,
                    show (obk + 1 - 1 : Int) = obk from by omega]
              · intro _
                obtain ⟨w1, w2⟩ := scan_ws rest 0 1
                obtain ⟨_, hEs⟩ := hE 0 1 le_rfl le_rfl
                have m1 := hEs ⟨rfl, rfl⟩
                obtain ⟨e1, e2⟩ := neutral_extend w1 w2 segE
                rw [m1] at e1
                have hlen : 1 ≤ segE.length := by
                  cases segE with
                  | nil => exact absurd rfl hEne
                  | cons a b => simp
                have t0 : stepSt ⟨0, 0, false, false⟩ '[' =
                    ⟨0, 1, false, false⟩ := by
                  rw [stepSt_lbrack, show ((0 : Int) + 1) = 1 from by norm_num]
                have : findEndFrom ('[' :: (rest.takeWhile jsonWs ++ segE))
                    ⟨0, 0, false, false⟩ =
                    some (segE.length - 1 + (rest.takeWhile jsonWs).length + 1) := by
                  apply scan_cons_some (stops_lbrack _) t0
                  rw [e1]
                  rfl
                rw [this]
                simp only [List.length_cons, List.length_append]
                congr 1
                omega
              · intro hscal
                rw [← hv] at hscal
                exact absurd hscal (by simp [Json.isContainer])
          · rw [if_neg hck] at h
            by_cases hcq : c = '"'
            · subst hcq
              rw [if_pos rfl] at h
              rcases hsb : parseStringBody (n + 1) rest with _ | ⟨s2, r2⟩
              · rw [hsb] at h; exact Option.noConfusion h
              rw [hsb] at h
              dsimp only at h
              have hr : r2 = r := congrArg Prod.snd (Option.some.inj h)
              subst hr
              have hv : Json.str ⟨s2⟩ = v := congrArg Prod.fst (Option.some.inj h)
              obtain ⟨segS, hsegS, hscanS⟩ := scan_stringBody (n + 1) rest s2 r2 hsb
              have neutral : ∀ ob obk : Int,
                  findEndFrom ('"' :: segS) ⟨ob, obk, false, false⟩ = none ∧
                  ('"' :: segS).foldl stepSt ⟨ob, obk, false, false⟩ =
                    ⟨ob, obk, false, false⟩ := by
                intro ob obk
                obtain ⟨s1, sf⟩ := hscanS ob obk
                have tq : stepSt ⟨ob, obk, false, false⟩ '"' =
                    ⟨ob, obk, true, false⟩ := by simp [stepSt]
                constructor
                · exact scan_cons_none (by simp [stops]) tq s1
                · rw [fold_cons _ tq, sf]
              refine ⟨'"' :: segS, by simp [hsegS], by simp, ?_, ?_, ?_⟩
              · intro ob obk _ _ _
                exact neutral ob obk
              · intro hcont
                rw [← hv] at hcont
                exact absurd hcont (by simp [Json.isContainer])
              · intro _
                exact neutral 0 0
            · rw [if_neg hcq] at h
              by_cases hlt : listIsPre ['t', 'r', 'u', 'e'] (c :: rest) = true
              · rw [if_pos hlt] at h
                have hv : Json.bool true = v := congrArg Prod.fst (Option.some.inj h)
                have hr : (c :: rest).drop 4 = r := congrArg Prod.snd (Option.some.inj h)
                have hdec := listIsPre_decomp _ _ hlt
                refine ⟨['t', 'r', 'u', 'e'], by rw [← hr]; exact hdec, by simp,
                  ?_, ?_, ?_⟩
                · intro ob obk _ _ _
                  exact scan_plain_seg _ ob obk (by decide)
                · intro hcont
                  rw [← hv] at hcont
                  exact absurd hcont (by simp [Json.isContainer])
                · intro _
                  exact scan_plain_seg _ 0 0 (by decide)
              · rw [if_neg hlt] at h
                by_cases hlf : listIsPre ['f', 'a', 'l', 's', 'e'] (c :: rest) = true
                · rw [if_pos hlf] at h
                  have hv : Json.bool false = v := congrArg Prod.fst (Option.some.inj h)
                  have hr : (c :: rest).drop 5 = r := congrArg Prod.snd (Option.some.inj h)
                  have hdec := listIsPre_decomp _ _ hlf
                  refine ⟨['f', 'a', 'l', 's', 'e'], by rw [← hr]; exact hdec, by simp,
                    ?_, ?_, ?_⟩
                  · intro ob obk _ _ _
                    exact scan_plain_seg _ ob obk (by decide)
                  · intro hcont
                    rw [← hv] at hcont
                    exact absurd hcont (by simp [Json.isContainer])
                  · intro _
                    exact scan_plain_seg _ 0 0 (by decide)
                · rw [if_neg hlf] at h
                  by_cases hln : listIsPre ['n', 'u', 'l', 'l'] (c :: rest) = true
                  · rw [if_pos hln] at h
                    have hv : Json.null = v := congrArg Prod.fst (Option.some.inj h)
                    have hr : (c :: rest).drop 4 = r := congrArg Prod.snd (Option.some.inj h)
                    have hdec := listIsPre_decomp _ _ hln
                    refine ⟨['n', 'u', 'l', 'l'], by rw [← hr]; exact hdec, by simp,
                      ?_, ?_, ?_⟩
                    · intro ob obk _ _ _
                      exact scan_plain_seg _ ob obk (by decide)
                    · intro hcont
                      rw [← hv] at hcont
                      exact absurd hcont (by simp [Json.isContainer])
                    · intro _
                      exact scan_plain_seg _ 0 0 (by decide)
                  · rw [if_neg hln] at h
                    rcases hnum : parseNumber (c :: rest) with _ | ⟨s2, r2⟩
                    · rw [hnum] at h; exact Option.noConfusion h
                    rw [hnum] at h
                    dsimp only at h
                    have hv : Json.num ⟨s2⟩ = v := congrArg Prod.fst (Option.some.inj h)
                    have hr : r2 = r := congrArg Prod.snd (Option.some.inj h)
                    subst hr
                    obtain ⟨hdec, hne, hplain⟩ := parseNumber_spec hnum
                    refine ⟨s2, hdec, hne, ?_, ?_, ?_⟩
                    · intro ob obk _ _ _
                      exact scan_plain_seg _ ob obk hplain
                    · intro hcont
                      rw [← hv] at hcont
                      exact absurd hcont (by simp [Json.isContainer])
                    · intro _
                      exact scan_plain_seg _ 0 0 hplain
    · -- parseMembers
      intro l kvs r h
      cases l with
      | nil => rw [parseMembers] at h; exact Option.noConfusion h
      | cons c rest =>
        rw [parseMembers] at h
        by_cases hcq : c = '"'
        case neg => rw [if_neg hcq] at h; exact Option.noConfusion h
        subst hcq
        rw [if_pos rfl] at h
        rcases hsb : parseStringBody (n + 1) rest with _ | ⟨k, r2⟩
        · rw [hsb] at h; exact Option.noConfusion h
        rw [hsb] at h
        dsimp only at h
        obtain ⟨segS, hsegS, hstr⟩ := neutralAt_string hsb
        rcases hws2 : skipJsonWs r2 with _ | ⟨d2, r4⟩
        · rw [hws2] at h; exact Option.noConfusion h
        rw [hws2] at h
        dsimp only at h
        by_cases hd2 : d2 = ':'
        case neg => rw [if_neg hd2] at h; exact Option.noConfusion h
        subst hd2
        rw [if_pos rfl] at h
        rcases hpv : parseValue n (skipJsonWs r4) with _ | ⟨v, r6⟩
        · rw [hpv] at h; exact Option.noConfusion h
        rw [hpv] at h
        dsimp only at h
        obtain ⟨segV, hsegV, hVne, hVneutral, hVcont, hVscal⟩ := ihV _ _ _ hpv
        rcases hws3 : skipJsonWs r6 with _ | ⟨d3, r8⟩
        · rw [hws3] at h; exact Option.noConfusion h
        rw [hws3] at h
        dsimp only at h
        have hr2d := skipJsonWs_decomp hws2
        have hr4d : r4 = r4.takeWhile jsonWs ++ skipJsonWs r4 := skipJsonWs_decomp rfl
        have hr6d := skipJsonWs_decomp hws3
        by_cases hd3 : d3 = ','
        · subst hd3
          rw [if_pos rfl] at h
          rcases hm2 : parseMembers n (skipJsonWs r8) with _ | ⟨kvs2, r9⟩
          · rw [hm2] at h; exact Option.noConfusion h
          rw [hm2] at h
          dsimp only at h
          have hr : r9 = r := congrArg Prod.snd (Option.some.inj h)
          subst hr
          obtain ⟨segM2, hsegM2, hM2ne, hM2⟩ := ihM _ _ _ hm2
          have hr8d : r8 = r8.takeWhile jsonWs ++ skipJsonWs r8 := skipJsonWs_decomp rfl
          refine ⟨('"' :: segS) ++ (r2.takeWhile jsonWs ++ ([':'] ++
            (r4.takeWhile jsonWs ++ (segV ++ (r6.takeWhile jsonWs ++ ([','] ++
            (r8.takeWhile jsonWs ++ segM2))))))), ?_, by simp, ?_⟩
          · conv_lhs => rw [hsegS, hr2d, hr4d, hsegV, hr6d, hr8d, hsegM2]
            simp [List.append_assoc]
          · intro ob obk hob hobk
            have hA := hstr ob obk
            have hB := neutralAt_ws r2 ob obk
            have hC : neutralAt ⟨ob, obk, false, false⟩ [':'] :=
              scan_plain_seg [':'] ob obk (by decide)
            have hD := neutralAt_ws r4 ob obk
            have hE : neutralAt ⟨ob, obk, false, false⟩ segV :=
              hVneutral ob obk (by omega) hobk (by omega)
            have hF := neutralAt_ws r6 ob obk
            have hG : neutralAt ⟨ob, obk, false, false⟩ [','] :=
              scan_plain_seg [','] ob obk (by decide)
            have hH := neutralAt_ws r8 ob obk
            constructor
            · intro hnz
              obtain ⟨m1, m2⟩ := (hM2 ob obk hob hobk).1 hnz
              constructor
              · rw [neutralAt_find hA, neutralAt_find hB, neutralAt_find hC,
                  neutralAt_find hD, neutralAt_find hE, neutralAt_find hF,
                  neutralAt_find hG, neutralAt_find hH, m1]
                rfl
              · rw [neutralAt_fold hA, neutralAt_fold hB, neutralAt_fold hC,
                  neutralAt_fold hD, neutralAt_fold hE, neutralAt_fold hF,
                  neutralAt_fold hG, neutralAt_fold hH, m2]
            · intro hz
              have m1 := (hM2 ob obk hob hobk).2 hz
              have hlen : 1 ≤ segM2.length := by
                cases segM2 with
                | nil => exact absurd rfl hM2ne
                | cons a b => simp
              rw [neutralAt_find hA, neutralAt_find hB, neutralAt_find hC,
                neutralAt_find hD, neutralAt_find hE, neutralAt_find hF,
                neutralAt_find hG, neutralAt_find hH, m1]
              simp only [Option.map_some', Option.some.injEq, List.length_append,
                List.length_cons, List.length_singleton, List.length_nil]
              omega
        · rw [if_neg hd3] at h
          by_cases hd3b : d3 = rbrace
          case neg => rw [if_neg hd3b] at h; exact Option.noConfusion h
          subst hd3b
          rw [if_pos rfl] at h
          have hr : r8 = r := congrArg Prod.snd (Option.some.inj h)
          subst hr
          refine ⟨('"' :: segS) ++ (r2.takeWhile jsonWs ++ ([':'] ++
            (r4.takeWhile jsonWs ++ (segV ++ (r6.takeWhile jsonWs ++ [rbrace]))))),
            ?_, by simp, ?_⟩
          · conv_lhs => rw [hsegS, hr2d, hr4d, hsegV, hr6d]
            simp [List.append_assoc]
          · intro ob obk hob hobk
            have hA := hstr ob obk
            have hB := neutralAt_ws r2 ob obk
            have hC : neutralAt ⟨ob, obk, false, false⟩ [':'] :=
              scan_plain_seg [':'] ob obk (by decide)
            have hD := neutralAt_ws r4 ob obk
            have hE : neutralAt ⟨ob, obk, false, false⟩ segV :=
              hVneutral ob obk (by omega) hobk (by omega)
            have hF := neutralAt_ws r6 ob obk
            constructor
            · intro hnz
              have stopc : stops ⟨ob, obk, false, false⟩ rbrace = false :=
                stops_rbrace_false hnz
              have hone : findEndFrom [rbrace] ⟨ob, obk, false, false⟩ = none :=
                scan_cons_none stopc (stepSt_rbrace ob obk) rfl
              constructor
              · rw [neutralAt_find hA, neutralAt_find hB, neutralAt_find hC,
                  neutralAt_find hD, neutralAt_find hE, neutralAt_find hF, hone]
                rfl
              · rw [neutralAt_fold hA, neutralAt_fold hB, neutralAt_fold hC,
                  neutralAt_fold hD, neutralAt_fold hE, neutralAt_fold hF,
                  List.foldl_cons, List.foldl_nil, stepSt_rbrace]
            · intro hz
              have stopc : stops ⟨ob, obk, false, false⟩ rbrace = true :=
                stops_rbrace_true hz.1 hz.2
              have hone : findEndFrom [rbrace] ⟨ob, obk, false, false⟩ = some 0 := by
                rw [findEndFrom, if_pos (by rw [stopc])]
              rw [neutralAt_find hA, neutralAt_find hB, neutralAt_find hC,
                neutralAt_find hD, neutralAt_find hE, neutralAt_find hF, hone]
              simp only [Option.map_some', Option.some.injEq, List.length_append,
                List.length_cons, List.length_singleton, List.length_nil]
              omega
    · -- parseElements
      intro l xs r h
      rw [parseElements] at h
      rcases hpv : parseValue n l with _ | ⟨v, r6⟩
      · rw [hpv] at h; exact Option.noConfusion h
      rw [hpv] at h
      dsimp only at h
      obtain ⟨segV, hsegV, hVne, hVneutral, hVcont, hVscal⟩ := ihV _ _ _ hpv
      rcases hws3 : skipJsonWs r6 with _ | ⟨d3, r8⟩
      · rw [hws3] at h; exact Option.noConfusion h
      rw [hws3] at h
      dsimp only at h
      have hr6d := skipJsonWs_decomp hws3
      by_cases hd3 : d3 = ','
      · subst hd3
        rw [if_pos rfl] at h
        rcases he2 : parseElements n (skipJsonWs r8) with _ | ⟨xs2, r9⟩
        · rw [he2] at h; exact Option.noConfusion h
        rw [he2] at h
        dsimp only at h
        have hr : r9 = r := congrArg Prod.snd (Option.some.inj h)
        subst hr
        obtain ⟨segE2, hsegE2, hE2ne, hE2⟩ := ihE _ _ _ he2
        have hr8d : r8 = r8.takeWhile jsonWs ++ skipJsonWs r8 := skipJsonWs_decomp rfl
        refine ⟨segV ++ (r6.takeWhile jsonWs ++ ([','] ++
          (r8.takeWhile jsonWs ++ segE2))), ?_, ?_, ?_⟩
        · conv_lhs => rw [hsegV, hr6d, hr8d, hsegE2]
          simp [List.append_assoc]
        · simp only [ne_eq, List.append_eq_nil, not_and]
          intro hVnil
          exact absurd hVnil hVne
        · intro ob obk hob hobk
          have hE : neutralAt ⟨ob, obk, false, false⟩ segV :=
            hVneutral ob obk hob (by omega) (by omega)
          have hF := neutralAt_ws r6 ob obk
          have hG : neutralAt ⟨ob, obk, false, false⟩ [','] :=
            scan_plain_seg [','] ob obk (by decide)
          have hH := neutralAt_ws r8 ob obk
          constructor
          · intro hnz
            obtain ⟨m1, m2⟩ := (hE2 ob obk hob hobk).1 hnz
            constructor
            · rw [neutralAt_find hE, neutralAt_find hF, neutralAt_find hG,
                neutralAt_find hH, m1]
              rfl
            · rw [neutralAt_fold hE, neutralAt_fold hF, neutralAt_fold hG,
                neutralAt_fold hH, m2]
          · intro hz
            have m1 := (hE2 ob obk hob hobk).2 hz
            have hlen : 1 ≤ segE2.length := by
              cases segE2 with
              | nil => exact absurd rfl hE2ne
              | cons a b => simp
            rw [neutralAt_find hE, neutralAt_find hF, neutralAt_find hG,
              neutralAt_find hH, m1]
            simp only [Option.map_some', Option.some.injEq, List.length_append,
              List.length_cons, List.length_singleton, List.length_nil]
            omega
      · rw [if_neg hd3] at h
        by_cases hd3b : d3 = ']'
        case neg => rw [if_neg hd3b] at h; exact Option.noConfusion h
        subst hd3b
        rw [if_pos rfl] at h
        have hr : r8 = r := congrArg Prod.snd (Option.some.inj h)
        subst hr
        refine ⟨segV ++ (r6.takeWhile jsonWs ++ [']']), ?_, ?_, ?_⟩
        · conv_lhs => rw [hsegV, hr6d]
          simp [List.append_assoc]
        · simp only [ne_eq, List.append_eq_nil, not_and]
          intro hVnil
          exact absurd hVnil hVne
        · intro ob obk hob hobk
          have hE : neutralAt ⟨ob, obk, false, false⟩ segV :=
            hVneutral ob obk hob (by omega) (by omega)
          have hF := neutralAt_ws r6 ob obk
          constructor
          · intro hnz
            have stopc : stops ⟨ob, obk, false, false⟩ ']' = false :=
              stops_rbrack_false hnz
            have hone : findEndFrom [']'] ⟨ob, obk, false, false⟩ = none :=
              scan_cons_none stopc (stepSt_rbrack ob obk) rfl
            constructor
            · rw [neutralAt_find hE, neutralAt_find hF, hone]
              rfl
            · rw [neutralAt_fold hE, neutralAt_fold hF,
                List.foldl_cons, List.foldl_nil, stepSt_rbrack]
          · intro hz
            have stopc : stops ⟨ob, obk, false, false⟩ ']' = true :=
              stops_rbrack_true hz.1 hz.2
            have hone : findEndFrom [']'] ⟨ob, obk, false, false⟩ = some 0 := by
              rw [findEndFrom, if_pos (by rw [stopc])]
            rw [neutralAt_find hE, neutralAt_find hF, hone]
            simp only [Option.map_some', Option.some.injEq, List.length_append,
              List.length_cons, List.length_singleton, List.length_nil]
            omega

/- ### From parsed JSON texts to the extractor -/

/-- A successfully parsed container value starts with an opener. -/
theorem parseValue_container_head :
    ∀ (fuel : Nat) (l : List Char) (v : Json) (r : List Char),
      parseValue fuel l = some (v, r) → v.isContainer = true →
      ∃ t, l = lbrace :: t ∨ l = '[' :: t := by
  intro fuel l v r h hc
  cases fuel with
  | zero => rw [parseValue] at h; exact Option.noConfusion h
  | succ n =>
    cases l with
    | nil => rw [parseValue] at h; exact Option.noConfusion h
    | cons c rest =>
      rw [parseValue] at h
      by_cases hcb : c = lbrace
      · exact ⟨rest, Or.inl (by rw [hcb])⟩
      rw [if_neg hcb] at h
      by_cases hck : c = '['
      · exact ⟨rest, Or.inr (by rw [hck])⟩
      rw [if_neg hck] at h
      exfalso
      by_cases hcq : c = '"'
      · rw [if_pos hcq] at h
        rcases hsb : parseStringBody (n + 1) rest with _ | ⟨s2, r2⟩
        · rw [hsb] at h; exact Option.noConfusion h
        · rw [hsb] at h
          dsimp only at h
          have hv : Json.str ⟨s2⟩ = v := congrArg Prod.fst (Option.some.inj h)
          rw [← hv] at hc
          simp [Json.isContainer] at hc
      rw [if_neg hcq] at h
      by_cases hlt : listIsPre ['t', 'r', 'u', 'e'] (c :: rest) = true
      · rw [if_pos hlt] at h
        have hv : Json.bool true = v := congrArg Prod.fst (Option.some.inj h)
        rw [← hv] at hc
        simp [Json.isContainer] at hc
      rw [if_neg hlt] at h
      by_cases hlf : listIsPre ['f', 'a', 'l', 's', 'e'] (c :: rest) = true
      · rw [if_pos hlf] at h
        have hv : Json.bool false = v := congrArg Prod.fst (Option.some.inj h)
        rw [← hv] at hc
        simp [Json.isContainer] at hc
      rw [if_neg hlf] at h
      by_cases hln : listIsPre ['n', 'u', 'l', 'l'] (c :: rest) = true
      · rw [if_pos hln] at h
        have hv : Json.null = v := congrArg Prod.fst (Option.some.inj h)
        rw [← hv] at hc
        simp [Json.isContainer] at hc
      rw [if_neg hln] at h
      rcases hnum : parseNumber (c :: rest) with _ | ⟨s2, r2⟩
      · rw [hnum] at h; exact Option.noConfusion h
      · rw [hnum] at h
        dsimp only at h
        have hv : Json.num ⟨s2⟩ = v := congrArg Prod.fst (Option.some.inj h)
        rw [← hv] at hc
        simp [Json.isContainer] at hc

/-- The last element of a concatenation with a singleton. -/
theorem getD_concat (a : List Char) (c : Char) :
    (a ++ [c]).getD a.length ' ' = c := by
  induction a with
  | nil => rfl
  | cons x a' ih => simpa using ih

/-- Dropping a satisfied prefix. -/
theorem dropWhile_append_all {p : Char → Bool} :
    ∀ {a b : List Char}, (∀ c ∈ a, p c = true) →
      (a ++ b).dropWhile p = b.dropWhile p := by
  intro a
  induction a with
  | nil => intro b _; rfl
  | cons x a' ih =>
    intro b h
    rw [List.cons_append, List.dropWhile_cons, if_pos (h x (List.mem_cons_self x a'))]
    exact ih (fun c hc => h c (List.mem_cons_of_mem x hc))

/-- The JSON whitespace characters are JavaScript whitespace. -/
theorem isJsWs_of_jsonWs {c : Char} (h : jsonWs c = true) :
    isJsWhitespace c = true := by
  have hc : c = ' ' ∨ c = '\t' ∨ c = '\n' ∨ c = '\r' := by
    simpa [jsonWs, or_assoc] using h
  rcases hc with rfl | rfl | rfl | rfl <;> decide

/-- Trimming a text that is whitespace, then a segment with non-whitespace
ends, then whitespace, yields the segment. -/
theorem jsTrimList_of_clean {l ws1 seg ws2 : List Char}
    (hdec : l = ws1 ++ seg ++ ws2)
    (hws1 : ∀ c ∈ ws1, isJsWhitespace c = true)
    (hws2 : ∀ c ∈ ws2, isJsWhitespace c = true)
    (hhead : ∃ c t, seg = c :: t ∧ isJsWhitespace c = false)
    (hlast : ∃ a c, seg = a ++ [c] ∧ isJsWhitespace c = false) :
    jsTrimList l = seg := by
  obtain ⟨c0, t0, hseg0, hc0⟩ := hhead
  obtain ⟨a1, c1, hseg1, hc1⟩ := hlast
  unfold jsTrimList
  rw [hdec, List.append_assoc, dropWhile_append_all hws1]
  have h1 : (seg ++ ws2).dropWhile isJsWhitespace = seg ++ ws2 := by
    rw [hseg0, List.cons_append, List.dropWhile_cons, if_neg (by simp [hc0])]
  rw [h1, List.reverse_append, dropWhile_append_all
    (by intro c hc; exact hws2 c (by simpa using hc))]
  have h2 : seg.reverse.dropWhile isJsWhitespace = seg.reverse := by
    rw [hseg1, List.reverse_append, List.reverse_singleton, List.singleton_append,
      List.dropWhile_cons, if_neg (by simp [hc1])]
  rw [h2, List.reverse_reverse]

/-- A list with a prefix test contains the prefix characters. -/
theorem listIsPre_mem {p l : List Char} (h : listIsPre p l = true) :
    ∀ c ∈ p, c ∈ l := by
  intro c hc
  rw [listIsPre_decomp p l h]
  exact List.mem_append.mpr (Or.inl hc)

/-- Trimming preserves non-membership. -/
theorem mem_jsTrimList {c : Char} {l : List Char} (h : c ∈ jsTrimList l) :
    c ∈ l := by
  unfold jsTrimList at h
  have h1 := (List.dropWhile_sublist (l := (l.dropWhile isJsWhitespace).reverse)
    (p := isJsWhitespace)).mem (by simpa using h)
  have h2 := (List.dropWhile_sublist (l := l) (p := isJsWhitespace)).mem
    (by simpa using h1)
  exact h2

/-- A prefix of `p ++ l` by `p` always tests true. -/
theorem listIsPre_append_self : ∀ (p l : List Char), listIsPre p (p ++ l) = true := by
  intro p
  induction p with
  | nil => intro l; rfl
  | cons c ps ih => intro l; simpa [listIsPre] using ih l

/-- The backtick repair is the identity on backtick-free text. -/
theorem btickRepairAux_id :
    ∀ (fuel : Nat) (l : List Char), btick ∉ l → btickRepairAux fuel l = l := by
  intro fuel
  induction fuel with
  | zero => intro l _; rfl
  | succ n ih =>
    intro l hbt
    cases l with
    | nil => rfl
    | cons c rest =>
      have hbrest : btick ∉ rest := fun hm => hbt (List.mem_cons_of_mem c hm)
      rw [btickRepairAux]
      by_cases hc : c = ':'
      · rw [if_pos hc]
        have hmatch : repairTryMatch rest = none := by
          unfold repairTryMatch
          rcases hdw : rest.dropWhile isJsWhitespace with _ | ⟨d, r2⟩
          · rfl
          · have hd : d ∈ rest := by
              have : d ∈ rest.dropWhile isJsWhitespace := by rw [hdw]; simp
              exact (List.dropWhile_sublist (l := rest)
                (p := isJsWhitespace)).mem this
            have hkne : ¬(d = btick) := fun he => hbrest (by rw [← he]; exact hd)
            dsimp only
            rw [if_neg hkne]
        rw [hmatch, hc, ih rest hbrest]
      · rw [if_neg hc, ih rest hbrest]

/-- The backtick repair is the identity on backtick-free text (top level). -/
theorem btickRepair_id {l : List Char} (hbt : btick ∉ l) : btickRepair l = l :=
  btickRepairAux_id l.length l hbt

/-- On backtick-free input the cleaned/repaired text is just the doubly
trimmed input. -/
theorem repairedText_no_btick {s : String} (hbt : btick ∉ s.data) :
    (repairedText s).data = jsTrimList (jsTrimList s.data) := by
  have htr : btick ∉ jsTrimList s.data := fun hm => hbt (mem_jsTrimList hm)
  have h1 : strStarts (jsTrimList s.data)
      [btick, btick, btick, 'j', 's', 'o', 'n'] = false := by
    rcases hb : strStarts (jsTrimList s.data)
      [btick, btick, btick, 'j', 's', 'o', 'n'] with _ | _
    · rfl
    · exact absurd (listIsPre_mem hb btick (by simp)) htr
  have h2 : strStarts (jsTrimList s.data) [btick, btick, btick] = false := by
    rcases hb : strStarts (jsTrimList s.data) [btick, btick, btick] with _ | _
    · rfl
    · exact absurd (listIsPre_mem hb btick (by simp)) htr
  have h3 : strEnds (jsTrimList s.data) [btick, btick, btick] = false := by
    rcases hb : strEnds (jsTrimList s.data) [btick, btick, btick] with _ | _
    · rfl
    · have := listIsPre_mem hb btick (by simp)
      exact absurd (by simpa using this) htr
  have hsf : stripFences s = jsTrimList (jsTrimList s.data) := by
    unfold stripFences
    simp [h1, h2, h3]
  show btickRepair (stripFences s) = _
  rw [hsf]
  exact btickRepair_id (fun hm => htr (mem_jsTrimList hm))

/-- Decomposition of a JSON text whose value is an object or array:
whitespace, a segment starting with an opener and ending at its balancing
closer (where the balanced scan stops), then whitespace. -/
theorem parseJsonText_container_decomp {T : String} {v : Json}
    (hparse : parseJsonText T = some v) (hcont : v.isContainer = true) :
    ∃ tw seg rr, T.data = tw ++ seg ++ rr ∧
      (∀ c ∈ tw, jsonWs c = true) ∧ (∀ c ∈ rr, jsonWs c = true) ∧
      seg ≠ [] ∧ (∃ t, seg = lbrace :: t ∨ seg = '[' :: t) ∧
      findEndFrom seg ⟨0, 0, false, false⟩ = some (seg.length - 1) ∧
      (∃ a cl, seg = a ++ [cl] ∧ isJsWhitespace cl = false) := by
  unfold parseJsonText at hparse
  dsimp only at hparse
  rcases hpv : parseValue ((skipJsonWs T.data).length + 1) (skipJsonWs T.data)
    with _ | ⟨v0, rr0⟩
  · rw [hpv] at hparse; exact Option.noConfusion hparse
  rw [hpv] at hparse
  dsimp only at hparse
  split_ifs at hparse with hrr
  have hv0 : v0 = v := Option.some.inj hparse
  subst hv0
  obtain ⟨seg, hdec, hne, _, hstop, _⟩ := (json_scan _).1 _ _ _ hpv
  have hstop2 := hstop hcont
  have htw : T.data = T.data.takeWhile jsonWs ++ skipJsonWs T.data :=
    skipJsonWs_decomp rfl
  refine ⟨T.data.takeWhile jsonWs, seg, rr0, ?_, ?_, ?_, hne, ?_, hstop2, ?_⟩
  · rw [List.append_assoc, ← hdec]
    exact htw
  · intro c hc
    exact List.mem_takeWhile_imp hc
  · intro c hc
    exact List.dropWhile_eq_nil_iff.mp hrr c hc
  · obtain ⟨t, hop⟩ := parseValue_container_head _ _ _ _ hpv hcont
    cases seg with
    | nil => exact absurd rfl hne
    | cons s0 segt =>
      rcases hop with hop | hop
      · refine ⟨segt, Or.inl ?_⟩
        have he : s0 :: (segt ++ rr0) = lbrace :: t := by
          rw [← List.cons_append, ← hdec, hop]
        rw [List.cons.injEq] at he
        rw [he.1]
      · refine ⟨segt, Or.inr ?_⟩
        have he : s0 :: (segt ++ rr0) = '[' :: t := by
          rw [← List.cons_append, ← hdec, hop]
        rw [List.cons.injEq] at he
        rw [he.1]
  · rcases List.eq_nil_or_concat seg with hnil | ⟨a, cl, hseg⟩
    · exact absurd hnil hne
    · rw [List.concat_eq_append] at hseg
      refine ⟨a, cl, hseg, ?_⟩
      have hget := findEndFrom_getD_closer seg _ _ hstop2
      rw [hseg] at hget
      have hlen : (a ++ [cl]).length - 1 = a.length := by simp
      rw [hlen, getD_concat] at hget
      rcases hget with rfl | rfl <;> decide

/-- Common final step: if the repaired text is exactly a segment that
starts with an opener and on which the scan balances at the last character,
the extractor returns that segment. -/
theorem extractJson_of_seg {s : String} {seg t : List Char}
    (hrep : (repairedText s).data = seg)
    (hop : seg = lbrace :: t ∨ seg = '[' :: t)
    (hend : findJsonEnd seg = some (seg.length - 1))
    (hne : seg ≠ []) :
    extractJsonFromResponse s = Except.ok ⟨seg⟩ := by
  have hstart : findJsonStart seg = some 0 := by
    rcases hop with hop | hop
    · rw [hop]
      have h1 : jsIndexOfChar (lbrace :: t) lbrace = some 0 := by
        unfold jsIndexOfChar
        rw [if_pos rfl]
      have h2 : jsIndexOfChar (lbrace :: t) '[' =
          (jsIndexOfChar t '[').map (· + 1) := rfl
      unfold findJsonStart
      rw [h1, h2]
      rcases jsIndexOfChar t '[' with _ | k
      · rfl
      · simp
    · rw [hop]
      have h1 : jsIndexOfChar ('[' :: t) '[' = some 0 := by
        unfold jsIndexOfChar
        rw [if_pos rfl]
      have h2 : jsIndexOfChar ('[' :: t) lbrace =
          (jsIndexOfChar t lbrace).map (· + 1) := rfl
      unfold findJsonStart
      rw [h1, h2]
      rcases jsIndexOfChar t lbrace with _ | k
      · rfl
      · simp
  have hlen : 1 ≤ seg.length := by
    cases seg with
    | nil => exact absurd rfl hne
    | cons a b => simp
  have htake : seg.take (seg.length - 1 + 1) = seg := by
    rw [show seg.length - 1 + 1 = seg.length from by omega, List.take_length]
  simp only [extractJsonFromResponse, hrep, hstart, List.drop_zero, hend, htake]

set_option maxHeartbeats 1000000 in
/-- C3 (amended): if the response text is a valid JSON text whose value is
an object or array, and contains no backtick, then `extractJsonFromResponse`
returns the trimmed text unchanged. -/
theorem extractJson_pure_json_amended (T : String) (v : Json)
    (hparse : parseJsonText T = some v) (hcont : v.isContainer = true)
    (hbt : btick ∉ T.data) :
    extractJsonFromResponse T = Except.ok (jsTrimStr T) := by
  obtain ⟨tw, seg, rr, hdec, htw, hrr, hne, ⟨t, hop⟩, hend, ⟨a, cl, hseg, hclw⟩⟩ :=
    parseJsonText_container_decomp hparse hcont
  have hheadw : ∃ c t0, seg = c :: t0 ∧ isJsWhitespace c = false := by
    rcases hop with hop | hop
    · exact ⟨lbrace, t, hop, by decide⟩
    · exact ⟨'[', t, hop, by decide⟩
  have htrim : jsTrimList T.data = seg :=
    jsTrimList_of_clean hdec (fun c hc => isJsWs_of_jsonWs (htw c hc))
      (fun c hc => isJsWs_of_jsonWs (hrr c hc)) hheadw ⟨a, cl, hseg, hclw⟩
  have htrim2 : jsTrimList seg = seg :=
    jsTrimList_of_clean (by simp : seg = [] ++ seg ++ [])
      (by simp) (by simp) hheadw ⟨a, cl, hseg, hclw⟩
  have hrep : (repairedText T).data = seg := by
    rw [repairedText_no_btick hbt, htrim, htrim2]
  have hendJ : findJsonEnd seg = some (seg.length - 1) := by
    unfold findJsonEnd initSt
    exact hend
  rw [extractJson_of_seg hrep hop hendJ hne]
  unfold jsTrimStr
  rw [htrim]

/-- C3 counterexample: the text `5` is a valid JSON text, yet the extractor
throws the "No JSON object or array found" error rather than returning it. -/
theorem extractJson_pure_json_counterexample :
    (parseJsonText "5").isSome = true ∧
    extractJsonFromResponse "5" =
      Except.error "No JSON object or array found in LLM response." :=
  ⟨rfl, rfl⟩

set_option maxHeartbeats 1000000 in
/-- Witness for the amended C3 theorem at a concrete JSON object. -/
theorem extractJson_pure_json_amended_witness :
    extractJsonFromResponse " \x7b\"a\": [1, true]\x7d " =
      Except.ok (jsTrimStr " \x7b\"a\": [1, true]\x7d ") :=
  extractJson_pure_json_amended " \x7b\"a\": [1, true]\x7d "
    (Json.obj [("a", Json.arr [Json.num "1", Json.bool true])])
    rfl rfl (by decide)

set_option maxHeartbeats 1000000 in
/-- C5 (amended): for a valid JSON text `T` whose value is an object or
array, with no backtick and no surrounding whitespace, extracting from
the fenced text ```` ```json\n ```` + `T` + ```` \n``` ```` returns `T`. -/
theorem fence_roundtrip_amended (T : String) (v : Json)
    (hparse : parseJsonText T = some v) (hcont : v.isContainer = true)
    (hbt : btick ∉ T.data) (htr : jsTrimStr T = T) :
    extractJsonFromResponse ("```json\n" ++ T ++ "\n```") = Except.ok T := by
  obtain ⟨tw, seg, rr, hdec, htw, hrr, hne, ⟨t, hop⟩, hend, ⟨a, cl, hseg, hclw⟩⟩ :=
    parseJsonText_container_decomp hparse hcont
  have hheadw : ∃ c t0, seg = c :: t0 ∧ isJsWhitespace c = false := by
    rcases hop with hop | hop
    · exact ⟨lbrace, t, hop, by decide⟩
    · exact ⟨'[', t, hop, by decide⟩
  have htrim : jsTrimList T.data = seg :=
    jsTrimList_of_clean hdec (fun c hc => isJsWs_of_jsonWs (htw c hc))
      (fun c hc => isJsWs_of_jsonWs (hrr c hc)) hheadw ⟨a, cl, hseg, hclw⟩
  have hTd : T.data = seg := by
    rw [← htrim]
    exact (congrArg String.data htr).symm
  have hF : ("```json\n" ++ T ++ "\n```").data
      = ("```json\n".data ++ T.data) ++ "\n```".data := rfl
  have hF3 : ("```json\n" ++ T ++ "\n```").data
      = [btick, btick, btick, 'j', 's', 'o', 'n'] ++
        ('\n' :: (T.data ++ "\n```".data)) := by
    rw [hF, show "```json\n".data
      = [btick, btick, btick, 'j', 's', 'o', 'n'] ++ ['\n'] from by decide]
    simp
  have hF2 : ("```json\n" ++ T ++ "\n```").data
      = btick :: (([btick, btick, 'j', 's', 'o', 'n', '\n'] ++ T.data)
          ++ "\n```".data) := by
    rw [hF, show "```json\n".data
      = btick :: [btick, btick, 'j', 's', 'o', 'n', '\n'] from by decide]
    simp
  have hF4 : ("```json\n" ++ T ++ "\n```").data
      = (("```json\n".data ++ T.data) ++ ['\n', btick, btick]) ++ [btick] := by
    rw [hF, show "\n```".data = ['\n', btick, btick] ++ [btick] from by decide]
    simp
  have hc0 : jsTrimList ("```json\n" ++ T ++ "\n```").data
      = ("```json\n" ++ T ++ "\n```").data := by
    refine jsTrimList_of_clean
      (show ("```json\n" ++ T ++ "\n```").data
        = [] ++ ("```json\n" ++ T ++ "\n```").data ++ [] from by simp)
      (by intro c hc; simp at hc) (by intro c hc; simp at hc) ?_ ?_
    · exact ⟨btick, _, hF2, by decide⟩
    · exact ⟨_, btick, hF4, by decide⟩
  have e1 : strStarts ("```json\n" ++ T ++ "\n```").data
      [btick, btick, btick, 'j', 's', 'o', 'n'] = true := by
    rw [hF3]
    exact listIsPre_append_self _ _
  have e2 : (("```json\n" ++ T ++ "\n```").data).drop 7
      = '\n' :: (T.data ++ "\n```".data) := by
    rw [hF3, show (7 : Nat)
      = [btick, btick, btick, 'j', 's', 'o', 'n'].length from rfl]
    exact List.drop_left _ _
  have hrev : ('\n' :: (T.data ++ "\n```".data)).reverse
      = [btick, btick, btick] ++ ('\n' :: (T.data.reverse ++ ['\n'])) := by
    rw [show "\n```".data = ['\n'] ++ [btick, btick, btick] from by decide]
    simp
  have e3 : strEnds ('\n' :: (T.data ++ "\n```".data))
      [btick, btick, btick] = true := by
    show listIsPre [btick, btick, btick].reverse
      (('\n' :: (T.data ++ "\n```".data)).reverse) = true
    rw [hrev, show [btick, btick, btick].reverse = [btick, btick, btick] from rfl]
    exact listIsPre_append_self _ _
  have hc1split : '\n' :: (T.data ++ "\n```".data)
      = ('\n' :: (T.data ++ ['\n'])) ++ [btick, btick, btick] := by
    rw [show "\n```".data = ['\n'] ++ [btick, btick, btick] from by decide]
    simp
  have e4 : ('\n' :: (T.data ++ "\n```".data)).take
      (('\n' :: (T.data ++ "\n```".data)).length - 3)
      = '\n' :: (T.data ++ ['\n']) := by
    conv_lhs => rw [hc1split]
    rw [show (('\n' :: (T.data ++ ['\n'])) ++ [btick, btick, btick]).length - 3
      = ('\n' :: (T.data ++ ['\n'])).length from by simp]
    exact List.take_left _ _
  have e5 : jsTrimList ('\n' :: (T.data ++ ['\n'])) = seg := by
    refine jsTrimList_of_clean
      (show '\n' :: (T.data ++ ['\n']) = ['\n'] ++ seg ++ ['\n'] by
        rw [hTd]; simp)
      (by intro c hc; simp at hc; rw [hc]; rfl)
      (by intro c hc; simp at hc; rw [hc]; rfl)
      hheadw ⟨a, cl, hseg, hclw⟩
  have hsf : stripFences ("```json\n" ++ T ++ "\n```") = seg := by
    unfold stripFences
    dsimp only
    rw [hc0, if_pos e1, e2, if_pos e3, e4]
    exact e5
  have hbtseg : btick ∉ seg := by
    rw [← hTd]
    exact hbt
  have hrepF : (repairedText ("```json\n" ++ T ++ "\n```")).data = seg := by
    show btickRepair (stripFences ("```json\n" ++ T ++ "\n```")) = seg
    rw [hsf]
    exact btickRepair_id hbtseg
  have hendJ : findJsonEnd seg = some (seg.length - 1) := by
    unfold findJsonEnd initSt
    exact hend
  rw [extractJson_of_seg hrepF hop hendJ hne]
  rw [← hTd]

/-- C5 counterexample: the text `5` is a valid JSON text, yet extracting
from its fenced form throws rather than returning it. -/
theorem fence_roundtrip_counterexample :
    (parseJsonText "5").isSome = true ∧
    extractJsonFromResponse "```json\n5\n```" =
      Except.error "No JSON object or array found in LLM response." :=
  ⟨rfl, rfl⟩

set_option maxHeartbeats 1000000 in
/-- Witness for the amended C5 theorem at a concrete JSON object. -/
theorem fence_roundtrip_amended_witness :
    extractJsonFromResponse ("```json\n" ++ "\x7b\"a\": [1, true]\x7d" ++ "\n```") =
      Except.ok "\x7b\"a\": [1, true]\x7d" :=
  fence_roundtrip_amended "\x7b\"a\": [1, true]\x7d"
    (Json.obj [("a", Json.arr [Json.num "1", Json.bool true])])
    rfl rfl (by decide) rfl

/-- The single counter of the plan scan tracks the sum of the two counters
of the shared scan. -/
theorem planStep_proj (st : ScanSt) (c : Char) :
    planStep ⟨st.ob + st.obk, st.inStr, st.esc⟩ c =
      ⟨(stepSt st c).ob + (stepSt st c).obk, (stepSt st c).inStr,
        (stepSt st c).esc⟩ := by
  rcases st with ⟨ob, obk, inS, esc⟩
  cases esc
  · cases inS
    · by_cases h1 : c = '\\'
      · subst h1; rfl
      by_cases h2 : c = '"'
      · subst h2; rfl
      by_cases h3 : c = lbrace
      · subst h3
        show PlanSt.mk (ob + obk + 1) false false
          = PlanSt.mk (ob + 1 + obk) false false
        rw [show ob + obk + 1 = ob + 1 + obk from by omega]
      by_cases h4 : c = rbrace
      · subst h4
        show PlanSt.mk (ob + obk - 1) false false
          = PlanSt.mk (ob - 1 + obk) false false
        rw [show ob + obk - 1 = ob - 1 + obk from by omega]
      by_cases h5 : c = '['
      · subst h5
        show PlanSt.mk (ob + obk + 1) false false
          = PlanSt.mk (ob + (obk + 1)) false false
        rw [show ob + obk + 1 = ob + (obk + 1) from by omega]
      by_cases h6 : c = ']'
      · subst h6
        show PlanSt.mk (ob + obk - 1) false false
          = PlanSt.mk (ob + (obk - 1)) false false
        rw [show ob + obk - 1 = ob + (obk - 1) from by omega]
      · simp [planStep, stepSt, h1, h2, h3, h4, h5, h6]
    · by_cases h1 : c = '\\'
      · subst h1; rfl
      by_cases h2 : c = '"'
      · subst h2; rfl
      · simp [planStep, stepSt, h1, h2]
  · rfl

/-- When both counters stay nonnegative after the step, the plan scan stops
exactly when the shared scan stops. -/
theorem planStops_proj {st : ScanSt} {c : Char}
    (hob : 0 ≤ (stepSt st c).ob) (hobk : 0 ≤ (stepSt st c).obk) :
    planStops ⟨st.ob + st.obk, st.inStr, st.esc⟩ c = stops st c := by
  unfold planStops stops
  rw [planStep_proj]
  dsimp only
  by_cases hsum : (stepSt st c).ob + (stepSt st c).obk = 0
  · have h0 : (stepSt st c).ob = 0 := by omega
    have h0k : (stepSt st c).obk = 0 := by omega
    simp [hsum, h0, h0k]
  · have hcase : ¬((stepSt st c).ob = 0) ∨ ¬((stepSt st c).obk = 0) := by omega
    rcases hcase with h | h
    · simp [hsum, h]
    · simp [hsum, h]

/-- On a text whose shared-scan trace keeps both counters nonnegative, the
plan scan finds exactly the index the shared scan finds. -/
theorem planFindEnd_proj : ∀ (l : List Char), ∀ (st : ScanSt),
    scanNonneg l st = true →
    planFindEnd l ⟨st.ob + st.obk, st.inStr, st.esc⟩ = findEndFrom l st := by
  intro l
  induction l with
  | nil => intro st _; rfl
  | cons c rest ih =>
    intro st hnn
    simp only [scanNonneg, Bool.and_eq_true, decide_eq_true_eq] at hnn
    obtain ⟨⟨hob, hobk⟩, hrest⟩ := hnn
    show (if planStops ⟨st.ob + st.obk, st.inStr, st.esc⟩ c = true then some 0
      else (planFindEnd rest (planStep ⟨st.ob + st.obk, st.inStr, st.esc⟩ c)).map (· + 1))
      = (if stops st c = true then some 0
      else (findEndFrom rest (stepSt st c)).map (· + 1))
    rw [planStops_proj hob hobk, planStep_proj]
    by_cases hs : stops st c = true
    · rw [if_pos hs, if_pos hs]
    · rw [if_neg hs, if_neg hs, ih _ hrest]

set_option maxHeartbeats 1000000 in
/-- C10 (amended): on a backtick-free valid JSON text whose value is an
object or array and whose shared-scan trace keeps both counters
nonnegative, the inline pipeline of `generateInstrumentationPlan` computes
exactly the text the shared extractor returns. -/
theorem plan_pipeline_amended (T : String) (v : Json)
    (hparse : parseJsonText T = some v) (hcont : v.isContainer = true)
    (hbt : btick ∉ T.data)
    (hnn : scanNonneg (jsTrimList T.data) ⟨0, 0, false, false⟩ = true) :
    planExtractJson T = jsTrimStr T ∧
      extractJsonFromResponse T = Except.ok (jsTrimStr T) := by
  obtain ⟨tw, seg, rr, hdec, htw, hrr, hne, ⟨t, hop⟩, hend, ⟨a, cl, hseg, hclw⟩⟩ :=
    parseJsonText_container_decomp hparse hcont
  have hheadw : ∃ c t0, seg = c :: t0 ∧ isJsWhitespace c = false := by
    rcases hop with hop | hop
    · exact ⟨lbrace, t, hop, by decide⟩
    · exact ⟨'[', t, hop, by decide⟩
  have htrim : jsTrimList T.data = seg :=
    jsTrimList_of_clean hdec (fun c hc => isJsWs_of_jsonWs (htw c hc))
      (fun c hc => isJsWs_of_jsonWs (hrr c hc)) hheadw ⟨a, cl, hseg, hclw⟩
  have htrim2 : jsTrimList seg = seg :=
    jsTrimList_of_clean (by simp : seg = [] ++ seg ++ [])
      (by simp) (by simp) hheadw ⟨a, cl, hseg, hclw⟩
  have hbtseg : btick ∉ seg := by
    rw [← htrim]
    exact fun hm => hbt (mem_jsTrimList hm)
  have hlen2 : 2 ≤ seg.length := by
    rcases hop with hop | hop
    · rcases t with _ | ⟨d, ts⟩
      · rw [hop] at hend
        exact absurd hend (by decide)
      · rw [hop]
        simp
    · rcases t with _ | ⟨d, ts⟩
      · rw [hop] at hend
        exact absurd hend (by decide)
      · rw [hop]
        simp
  have hplanEnd : planFindEnd seg ⟨0, false, false⟩ = some (seg.length - 1) := by
    have hp := planFindEnd_proj seg ⟨0, 0, false, false⟩ (htrim ▸ hnn)
    rw [show ((0 : Int) + 0) = 0 from by norm_num] at hp
    rw [hp]
    exact hend
  have hfence : strStarts seg [btick, btick, btick] = false := by
    rcases hb : strStarts seg [btick, btick, btick] with _ | _
    · rfl
    · exact absurd (listIsPre_mem hb btick (by simp)) hbtseg
  have hcond : (!strStarts seg [lbrace] && !strStarts seg ['[']) = false := by
    rcases hop with hop | hop <;> rw [hop] <;> rfl
  have htake : seg.take (seg.length - 1 + 1) = seg := by
    rw [show seg.length - 1 + 1 = seg.length from by omega, List.take_length]
  have hplan : planExtractJson T = jsTrimStr T := by
    unfold planExtractJson
    dsimp only
    rw [htrim, if_neg (show ¬(strStarts seg [btick, btick, btick] = true) by
        rw [hfence]; exact Bool.false_ne_true),
      if_neg (show ¬((!strStarts seg [lbrace] && !strStarts seg ['[']) = true) by
        rw [hcond]; exact Bool.false_ne_true),
      hplanEnd]
    dsimp only
    rw [if_pos (by omega : 0 < seg.length - 1), htake]
    unfold jsTrimStr
    rw [htrim]
  refine ⟨hplan, ?_⟩
  have hrep : (repairedText T).data = seg := by
    rw [repairedText_no_btick hbt, htrim, htrim2]
  have hendJ : findJsonEnd seg = some (seg.length - 1) := by
    unfold findJsonEnd initSt
    exact hend
  rw [extractJson_of_seg hrep hop hendJ hne]
  unfold jsTrimStr
  rw [htrim]

/-- C10 counterexample: on a reply whose JSON carries a backtick-quoted
value, the shared extractor repairs the backticks to a quoted string while
the inline plan pipeline returns the text unrepaired. -/
theorem plan_pipeline_counterexample :
    extractJsonFromResponse "\x7b\"a\": `b`\x7d" = Except.ok "\x7b\"a\": \"b\"\x7d" ∧
    planExtractJson "\x7b\"a\": `b`\x7d" = "\x7b\"a\": `b`\x7d" ∧
    planExtractJson "[\x7d\x7b]" = "[\x7d" ∧
    extractJsonFromResponse "[\x7d\x7b]" = Except.ok "[\x7d\x7b]" :=
  ⟨rfl, rfl, rfl, rfl⟩

set_option maxHeartbeats 1000000 in
/-- Witness for the amended C10 theorem at a concrete JSON object. -/
theorem plan_pipeline_amended_witness :
    planExtractJson "\x7b\"b\": \x7b\"c\": 2\x7d\x7d" = jsTrimStr "\x7b\"b\": \x7b\"c\": 2\x7d\x7d" ∧
      extractJsonFromResponse "\x7b\"b\": \x7b\"c\": 2\x7d\x7d" =
        Except.ok (jsTrimStr "\x7b\"b\": \x7b\"c\": 2\x7d\x7d") :=
  plan_pipeline_amended "\x7b\"b\": \x7b\"c\": 2\x7d\x7d"
    (Json.obj [("b", Json.obj [("c", Json.num "2")])])
    rfl rfl (by decide) rfl

/-- `extractSpansFromText` written with the named pass-2 step. -/
theorem extractSpans_eq_fold (text : String) :
    extractSpansFromText text =
      (pass2Names text).foldl (pass2Step text)
        (((pass1Names text).filter hasDotStr).map (mkPass1Span text)) := rfl

/-- The pass-2 step either keeps the list or appends one candidate. -/
theorem pass2Step_cases (text : String) (spans : List SpanDefinition)
    (nm : String) :
    pass2Step text spans nm = spans ∨
      pass2Step text spans nm = spans ++ [mkPass2Span text nm] := by
  unfold pass2Step
  split_ifs <;> simp

/-- The pass-2 step appends only names that are not yet present. -/
theorem pass2Step_cases_fine (text : String) (spans : List SpanDefinition)
    (nm : String) :
    pass2Step text spans nm = spans ∨
      ((spans.find? (fun s => s.name = nm)).isSome = false ∧
        pass2Step text spans nm = spans ++ [mkPass2Span text nm]) := by
  unfold pass2Step
  split_ifs with h1 h2
  · exact Or.inl rfl
  · exact Or.inl rfl
  · refine Or.inr ⟨?_, rfl⟩
    rcases hf : (spans.find? (fun s => s.name = nm)).isSome with _ | _
    · exact hf
    · exact absurd hf h2

/-- The pass-2 fold only appends to its accumulator. -/
theorem pass2_fold_prefix (text : String) :
    ∀ (nms : List String) (spans : List SpanDefinition),
      ∃ tl, nms.foldl (pass2Step text) spans = spans ++ tl := by
  intro nms
  induction nms with
  | nil => intro spans; exact ⟨[], by simp⟩
  | cons nm nms ih =>
    intro spans
    rw [List.foldl_cons]
    rcases pass2Step_cases text spans nm with h | h <;> rw [h]
    · exact ih spans
    · obtain ⟨tl, htl⟩ := ih (spans ++ [mkPass2Span text nm])
      exact ⟨[mkPass2Span text nm] ++ tl, by rw [htl, List.append_assoc]⟩

/-- The pass-2 fold preserves distinctness of the candidate names. -/
theorem pass2_fold_nodup (text : String) :
    ∀ (nms : List String) (spans : List SpanDefinition),
      (spans.map SpanDefinition.name).Nodup →
      ((nms.foldl (pass2Step text) spans).map SpanDefinition.name).Nodup := by
  intro nms
  induction nms with
  | nil => intro spans h; exact h
  | cons nm nms ih =>
    intro spans h
    rw [List.foldl_cons]
    rcases pass2Step_cases_fine text spans nm with hc | ⟨hf, hc⟩
    · rw [hc]
      exact ih spans h
    · rw [hc]
      refine ih _ ?_
      rw [List.map_append,
        show [mkPass2Span text nm].map SpanDefinition.name = [nm] from rfl]
      refine List.nodup_append.mpr ⟨h, List.nodup_singleton _, ?_⟩
      intro a ha hb
      rw [List.mem_singleton] at hb
      rw [List.mem_map] at ha
      obtain ⟨s, hs, hname⟩ := ha
      have hsome : (spans.find? (fun s => s.name = nm)).isSome = true :=
        List.find?_isSome.mpr ⟨s, hs, by simp [hname, hb]⟩
      rw [hsome] at hf
      exact Bool.noConfusion hf

/-- Every element of the pass-2 fold is an original element or a pass-2
candidate. -/
theorem pass2_fold_mem (text : String) :
    ∀ (nms : List String) (spans : List SpanDefinition) (c : SpanDefinition),
      c ∈ nms.foldl (pass2Step text) spans →
      c ∈ spans ∨ ∃ nm, c = mkPass2Span text nm := by
  intro nms
  induction nms with
  | nil => intro spans c h; exact Or.inl h
  | cons nm nms ih =>
    intro spans c h
    rw [List.foldl_cons] at h
    rcases pass2Step_cases text spans nm with hc | hc <;> rw [hc] at h
    · exact ih spans c h
    · rcases ih _ c h with hm | hm
      · rcases List.mem_append.mp hm with hm2 | hm2
        · exact Or.inl hm2
        · exact Or.inr ⟨nm, by simpa using hm2⟩
      · exact Or.inr hm

/-- Every candidate of `extractSpansFromText` is a pass-1 or a pass-2
candidate. -/
theorem spans_shape (text : String) (c : SpanDefinition)
    (hc : c ∈ extractSpansFromText text) :
    (∃ nm, c = mkPass1Span text nm) ∨ (∃ nm, c = mkPass2Span text nm) := by
  rw [extractSpans_eq_fold] at hc
  rcases pass2_fold_mem text _ _ _ hc with hm | hm
  · rcases List.mem_map.mp hm with ⟨nm, _, he⟩
    exact Or.inl ⟨nm, he.symm⟩
  · exact Or.inr hm

/-- Each key collected by `detectPIIKeys` was in the accumulator or is an
attribute key containing a PII keyword. -/
theorem detectPII_mem :
    ∀ (attrs : List (String × String)) (acc : List String) (k : String),
      k ∈ attrs.foldl
        (fun acc kv =>
          if piiKeywords.any
            (fun kw => containsSub (asciiLowerList kv.1.data) kw.data) then
            acc ++ [kv.1]
          else acc) acc →
      k ∈ acc ∨ (k ∈ attrs.map Prod.fst ∧
        piiKeywords.any (fun kw => containsSub (asciiLowerList k.data) kw.data)
          = true) := by
  intro attrs
  induction attrs with
  | nil => intro acc k h; exact Or.inl h
  | cons kv attrs ih =>
    intro acc k h
    rw [List.foldl_cons] at h
    by_cases hkw : piiKeywords.any
        (fun kw => containsSub (asciiLowerList kv.1.data) kw.data) = true
    · rw [if_pos hkw] at h
      rcases ih _ k h with hm | ⟨hm, hp⟩
      · rcases List.mem_append.mp hm with hm2 | hm2
        · exact Or.inl hm2
        · rw [List.mem_singleton] at hm2
          subst hm2
          exact Or.inr ⟨by simp, hkw⟩
      · exact Or.inr ⟨by simp [hm], hp⟩
    · rw [if_neg hkw] at h
      rcases ih _ k h with hm | ⟨hm, hp⟩
      · exact Or.inl hm
      · exact Or.inr ⟨by simp [hm], hp⟩

/-- Keys reported by `detectPIIKeys` are attribute keys whose lower-cased
form contains a PII keyword. -/
theorem detectPII_sub (attrs : List (String × String)) (k : String)
    (h : k ∈ detectPIIKeys attrs) :
    k ∈ attrs.map Prod.fst ∧
      piiKeywords.any (fun kw => containsSub (asciiLowerList k.data) kw.data)
        = true := by
  rcases detectPII_mem attrs [] k h with hm | hp
  · exact absurd hm (List.not_mem_nil k)
  · exact hp

set_option maxHeartbeats 2000000 in
/-- C6: on the spec's own example text, the extractor returns one candidate
whose name is the truncated `checkout.validate` — the name classes of both
extraction patterns lack the underscore, so `checkout.validate_cart` is
never captured (pattern 1 fails at the underscore before the closing
backtick; pattern 2 needs no closing delimiter and captures the truncated
name). -/
theorem span_extraction_basic_bug :
    (extractSpansFromText "Add a custom span `checkout.validate_cart`: validates the cart before payment. Attributes: `cart_value`, `item_count`.").map SpanDefinition.name
      = ["checkout.validate"] ∧
    ¬((extractSpansFromText "Add a custom span `checkout.validate_cart`: validates the cart before payment. Attributes: `cart_value`, `item_count`.").map SpanDefinition.name
      = ["checkout.validate_cart"]) := by
  have h1 : (extractSpansFromText "Add a custom span `checkout.validate_cart`: validates the cart before payment. Attributes: `cart_value`, `item_count`.").map SpanDefinition.name
      = ["checkout.validate"] := rfl
  exact ⟨h1, by rw [h1]; decide⟩

/-- C7 (amended): the result of `extractSpansFromText` has pairwise distinct
names exactly when the pass-1 names (with a dot) are pairwise distinct —
only pass 2 deduplicates against the accumulated list; and the claim's own
example, one backtick mention plus one `span:` phrasing of the same name,
does yield a single candidate. -/
theorem span_dedup_amended :
    (∀ text : String,
      ((extractSpansFromText text).map SpanDefinition.name).Nodup ↔
        ((pass1Names text).filter hasDotStr).Nodup) ∧
    (extractSpansFromText "`a.b` span: a.b").map SpanDefinition.name
      = ["a.b"] := by
  constructor
  · intro text
    have hmap1 : (((pass1Names text).filter hasDotStr).map
        (mkPass1Span text)).map SpanDefinition.name
        = (pass1Names text).filter hasDotStr := by
      rw [List.map_map]
      have hco : (SpanDefinition.name ∘ mkPass1Span text) = id := by
        funext nm
        rfl
      rw [hco, List.map_id]
    constructor
    · intro h
      rw [extractSpans_eq_fold] at h
      obtain ⟨tl, htl⟩ := pass2_fold_prefix text (pass2Names text) _
      rw [htl, List.map_append, hmap1] at h
      exact (List.nodup_append.mp h).1
    · intro h
      rw [extractSpans_eq_fold]
      refine pass2_fold_nodup text _ _ ?_
      rw [hmap1]
      exact h
  · rfl

/-- C7 counterexample: two backtick mentions of the same name yield two
candidates with the same name — pass 1 never deduplicates. -/
theorem span_dedup_counterexample :
    (extractSpansFromText "`a.b` and `a.b`").map SpanDefinition.name
      = ["a.b", "a.b"] := rfl

/-- C8: every candidate's PII keys are attribute keys whose lower-cased
form contains a PII keyword; pass-1 candidates carry exactly
`detectPIIKeys` of their attributes, pass-2 candidates carry `[]`. -/
theorem pii_derivation_invariant (text : String) (c : SpanDefinition)
    (hc : c ∈ extractSpansFromText text) :
    (∀ k ∈ c.piiKeys, k ∈ c.attributes.map Prod.fst ∧
      piiKeywords.any (fun kw => containsSub (asciiLowerList k.data) kw.data)
        = true) ∧
    (c.piiKeys = detectPIIKeys c.attributes ∨ c.piiKeys = []) := by
  rcases spans_shape text c hc with ⟨nm, rfl⟩ | ⟨nm, rfl⟩
  · constructor
    · intro k hk
      exact detectPII_sub (extractAttributes nm text) k hk
    · exact Or.inl rfl
  · constructor
    · intro k hk
      exact absurd hk (List.not_mem_nil k)
    · exact Or.inr rfl

set_option maxHeartbeats 1000000 in
/-- Witness for the C8 invariant on a concrete text with a PII attribute. -/
theorem pii_derivation_invariant_witness :
    (∀ k ∈ (mkPass1Span "`a.b`: ok. Attributes: `email`." "a.b").piiKeys,
      k ∈ (mkPass1Span "`a.b`: ok. Attributes: `email`." "a.b").attributes.map
        Prod.fst ∧
      piiKeywords.any (fun kw => containsSub (asciiLowerList k.data) kw.data)
        = true) ∧
    ((mkPass1Span "`a.b`: ok. Attributes: `email`." "a.b").piiKeys
        = detectPIIKeys
          (mkPass1Span "`a.b`: ok. Attributes: `email`." "a.b").attributes ∨
      (mkPass1Span "`a.b`: ok. Attributes: `email`." "a.b").piiKeys = []) :=
  pii_derivation_invariant "`a.b`: ok. Attributes: `email`."
    (mkPass1Span "`a.b`: ok. Attributes: `email`." "a.b") (by decide)

/-- C9: when neither extraction pattern matches anything in the text, the
extractor returns the empty list (and, being a total function of the text,
it never fails). -/
theorem extractor_empty (text : String)
    (h1 : pass1Names text = []) (h2 : pass2Names text = []) :
    extractSpansFromText text = [] := by
  unfold extractSpansFromText
  dsimp only
  rw [h1, h2]
  rfl

/-- Witness for C9 on plain prose. -/
theorem extractor_empty_witness :
    extractSpansFromText "hello world" = [] :=
  extractor_empty "hello world" rfl rfl

set_option maxHeartbeats 2000000 in
/-- Claim C1: `extractJsonFromResponse` fails exactly when the
cleaned/repaired text contains no left brace and no left bracket, or when
the balanced scan reaches the end of the input without balancing; in every
other case it returns a substring of the repaired text on which the scan
balances exactly at the last character (so never a partial or unbalanced
substring).  The two failure examples of the spec are included. -/
theorem extractJson_error_iff_and_balanced :
    (∀ s : String,
      ((∃ e, extractJsonFromResponse s = Except.error e) ↔
        (lbrace ∉ (repairedText s).data ∧ '[' ∉ (repairedText s).data) ∨
        (∃ start, findJsonStart (repairedText s).data = some start ∧
          findJsonEnd ((repairedText s).data.drop start) = none)) ∧
      (∀ r, extractJsonFromResponse s = Except.ok r →
        (∃ pre post, (repairedText s).data = pre ++ r.data ++ post) ∧
        r.data ≠ [] ∧ findJsonEnd r.data = some (r.data.length - 1))) ∧
    (∃ e, extractJsonFromResponse "just prose, no JSON here" = Except.error e) ∧
    (∃ e, extractJsonFromResponse "\x7b\"a\": \"b\"" = Except.error e) := by
  refine ⟨fun s => ⟨?_, ?_⟩, ⟨_, rfl⟩, ⟨_, rfl⟩⟩
  · rcases h1 : findJsonStart (repairedText s).data with _ | start
    · apply iff_of_true
      · exact ⟨"No JSON object or array found in LLM response.",
          by simp only [extractJsonFromResponse, h1]⟩
      · exact Or.inl (findJsonStart_eq_none.mp h1)
    · rcases h2 : findJsonEnd ((repairedText s).data.drop start) with _ | e
      · apply iff_of_true
        · exact ⟨"Incomplete JSON object or array in LLM response.",
            by simp only [extractJsonFromResponse, h1, h2]⟩
        · exact Or.inr ⟨start, rfl, h2⟩
      · apply iff_of_false
        · rintro ⟨e', he'⟩
          simp only [extractJsonFromResponse, h1, h2] at he'
          exact Except.noConfusion he'
        · rintro (⟨hnb, hnk⟩ | ⟨start', hs', hend'⟩)
          · have hn := findJsonStart_eq_none.mpr ⟨hnb, hnk⟩
            rw [h1] at hn
            exact Option.noConfusion hn
          · obtain rfl : start' = start := (Option.some.inj hs').symm
            rw [h2] at hend'
            exact Option.noConfusion hend'
  · intro r hr
    rcases h1 : findJsonStart (repairedText s).data with _ | start
    · simp only [extractJsonFromResponse, h1] at hr
      exact Except.noConfusion hr
    · rcases h2 : findJsonEnd ((repairedText s).data.drop start) with _ | e
      · simp only [extractJsonFromResponse, h1, h2] at hr
        exact Except.noConfusion hr
      · simp only [extractJsonFromResponse, h1, h2, Except.ok.injEq] at hr
        subst hr
        obtain ⟨hlt, htake⟩ := findEndFrom_take _ _ _ h2
        have hdata :
            (String.mk (((repairedText s).data.drop start).take (e + 1))).data =
              ((repairedText s).data.drop start).take (e + 1) := rfl
        have hlen :
            (((repairedText s).data.drop start).take (e + 1)).length = e + 1 := by
          rw [List.length_take]
          omega
        refine ⟨⟨(repairedText s).data.take start,
            ((repairedText s).data.drop start).drop (e + 1), ?_⟩, ?_, ?_⟩
        · rw [hdata]
          conv_rhs => rw [List.append_assoc, List.take_append_drop, List.take_append_drop]
        · rw [hdata]
          intro hnil
          rw [hnil] at hlen
          simp at hlen
        · rw [hdata, hlen]
          simpa using htake

set_option maxHeartbeats 2000000 in
/-- Witness for C1: a concrete response with prose around the JSON object,
instantiating the success branch of the theorem. -/
theorem extractJson_error_iff_and_balanced_witness :
    (∃ pre post, (repairedText "noise \x7b\"a\": [1]\x7d tail").data =
      pre ++ "\x7b\"a\": [1]\x7d".data ++ post) ∧
    "\x7b\"a\": [1]\x7d".data ≠ [] ∧
    findJsonEnd "\x7b\"a\": [1]\x7d".data =
      some ("\x7b\"a\": [1]\x7d".data.length - 1) := by
  have h := (extractJson_error_iff_and_balanced.1 "noise \x7b\"a\": [1]\x7d tail").2
    "\x7b\"a\": [1]\x7d" (by rfl)
  exact h

set_option maxHeartbeats 2000000 in
/-- Claim C4: on the input whose string value contains braces the whole
object is extracted, and in general the scan's string handling makes braces
inside string literals irrelevant: with `inString` set (and no pending
escape) any character other than a quote or backslash leaves the state
unchanged and cannot end the scan; a pending `escapeNext` consumes exactly
one character; and the scan never stops inside a string. -/
theorem balanced_scan_string_handling :
    extractJsonFromResponse "\x7b\"a\": \"contains \x7d and \x7b chars\", \"b\": 1\x7d" =
      Except.ok "\x7b\"a\": \"contains \x7d and \x7b chars\", \"b\": 1\x7d" ∧
    (∀ (st : ScanSt) (c : Char), st.inStr = true → st.esc = false →
      c ≠ '"' → c ≠ '\\' → stepSt st c = st ∧ stops st c = false) ∧
    (∀ (st : ScanSt) (c : Char), st.esc = true →
      stepSt st c = { st with esc := false } ∧ stops st c = false) ∧
    (∀ (st : ScanSt) (c : Char), stops st c = true → st.inStr = false) := by
  refine ⟨rfl, ?_, ?_, ?_⟩
  · intro st c hin hesc hq hb
    constructor
    · simp [stepSt, hin, hesc, hq, hb]
    · simp [stops, hin]
  · intro st c hesc
    constructor
    · simp [stepSt, hesc]
    · simp [stops, hesc]
  · intro st c h
    simp only [stops, Bool.and_eq_true, Bool.not_eq_true'] at h
    exact h.1.1.1.2

set_option maxHeartbeats 1000000 in
/-- Witness for C4: a closing brace seen inside a string leaves the scan
state untouched and does not end the scan. -/
theorem balanced_scan_string_handling_witness :
    stepSt ⟨1, 0, true, false⟩ rbrace = ⟨1, 0, true, false⟩ ∧
    stops ⟨1, 0, true, false⟩ rbrace = false := by
  have h := balanced_scan_string_handling.2.1 ⟨1, 0, true, false⟩ rbrace rfl rfl
    (by decide) (by decide)
  exact h

set_option maxHeartbeats 4000000 in
/-- Claim C2: on a JSON object whose `code` value is backtick-delimited and
contains an embedded double quote and newline, the repaired text parses to a
`code` field equal to the original interior exactly; the escape table of the
repair maps backslash, quote and the five standard control characters to
their JSON escapes and every other control character in 0x00–0x1F and
0x7F–0x9F to a `\uXXXX` escape. -/
theorem backtick_repair_correctness :
    extractJsonFromResponse "\x7b\"code\": `const x = \"a\";\n return x;`\x7d" =
      Except.ok "\x7b\"code\": \"const x = \\\"a\\\";\\n return x;\"\x7d" ∧
    parseJsonText "\x7b\"code\": \"const x = \\\"a\\\";\\n return x;\"\x7d" =
      some (Json.obj [("code", Json.str "const x = \"a\";\n return x;")]) ∧
    escContent '"' = ['\\', '"'] ∧ escContent '\\' = ['\\', '\\'] ∧
    escContent (Char.ofNat 8) = ['\\', 'b'] ∧
    escContent (Char.ofNat 12) = ['\\', 'f'] ∧
    escContent '\n' = ['\\', 'n'] ∧ escContent '\r' = ['\\', 'r'] ∧
    escContent '\t' = ['\\', 't'] ∧
    escContent (Char.ofNat 1) = ['\\', 'u', '0', '0', '0', '1'] ∧
    escContent (Char.ofNat 0x9f) = ['\\', 'u', '0', '0', '9', 'f'] ∧
    (∀ c : Char, (c.toNat ≤ 0x1f ∨ (0x7f ≤ c.toNat ∧ c.toNat ≤ 0x9f)) →
      c ≠ Char.ofNat 8 → c ≠ Char.ofNat 12 → c ≠ '\n' → c ≠ '\r' → c ≠ '\t' →
      escContent c = '\\' :: 'u' :: hex4 c.toNat) := by
  refine ⟨rfl, rfl, rfl, rfl, rfl, rfl, rfl, rfl, rfl, rfl, rfl, ?_⟩
  intro c h h8 h12 hn hr ht
  have hq : c ≠ '"' := by
    rintro rfl
    rcases h with h1 | ⟨h1, h2⟩
    · exact absurd h1 (by decide)
    · exact absurd h1 (by decide)
  have hb : c ≠ '\\' := by
    rintro rfl
    rcases h with h1 | ⟨h1, h2⟩
    · exact absurd h1 (by decide)
    · exact absurd h1 (by decide)
  rcases h with h1 | ⟨h1, h2⟩
  · simp [escContent, h1, hq, hb, h8, h12, hn, hr, ht]
  · simp [escContent, h1, h2, hq, hb, h8, h12, hn, hr, ht]
